import Mathlib

/-!
Verification of the yunikorn scheduling core (queue tree and partition context)
against its natural-language specification.  The Go sources are shallowly
embedded: maps become association lists, pointer mutation becomes explicit
state passing, and fallible methods return an `Option String` error paired
with the post-state (the Go methods mutate receivers and return an error).
-/

/-- Resource: a mapping from resource-type name to an integer quantity
(`resources.Resource` in Go: `map[string]Quantity` with `Quantity = int64`).
Embedded as an association list; a missing key reads as 0, matching Go map
semantics.  Modelled from the spec (section 3, Resource): the resources
package is not part of the sources. -/
def Resource : Type := List (String × Int)

instance : DecidableEq Resource := by unfold Resource; infer_instance

/-- Empty resource (`resources.NewResource()`). -/
def Resource.nil : Resource := []

/-- Read one dimension; a missing key is 0 (Go map read semantics). -/
def Resource.get (r : Resource) (k : String) : Int :=
  match r.lookup k with
  | some v => v
  | none => 0

/-- Clone returns a copy of the map; under value semantics it is the
identity (`Resource.Clone` in Go). -/
def Resource.clone (r : Resource) : Resource := r

/-- Pointwise addition (`resources.Add` / `AddTo`): every key of either
operand appears in the result with the sum of the two values. -/
def Resource.add (a b : Resource) : Resource :=
  a.map (fun kv => (kv.1, kv.2 + b.get kv.1)) ++
    b.filter (fun kv => (a.lookup kv.1).isNone)

/-- Pointwise subtraction (`resources.Sub` / `SubFrom`): keys only on the
right appear negated.  Go's `Sub` does not guard against negatives. -/
def Resource.sub (a b : Resource) : Resource :=
  a.map (fun kv => (kv.1, kv.2 - b.get kv.1)) ++
    (b.filter (fun kv => (a.lookup kv.1).isNone)).map (fun kv => (kv.1, -kv.2))

/-- FitIn (`resources.FitIn(larger, smaller)`): for every key of `smaller`
the value of `larger` (0 when missing) must be at least as large. -/
def Resource.fitIn (larger smaller : Resource) : Bool :=
  smaller.all (fun kv => kv.2 ≤ larger.get kv.1)

/-- Lower-casing of a string (`strings.ToLower`), defined over the
character list so that the kernel can evaluate it on literals. -/
def strToLower (s : String) : String := ⟨s.data.map Char.toLower⟩

/-- Splitting a character list on the dot separator. -/
def splitDotChars : List Char → List (List Char)
  | [] => [[]]
  | c :: rest =>
    let r := splitDotChars rest
    if c = '.' then [] :: r
    else match r with
      | [] => [[c]]
      | g :: gs => (c :: g) :: gs

/-- Splitting a string on the dot separator (`strings.Split(name, DOT)`),
defined over the character list so that the kernel can evaluate it on
literals.  Like Go's `strings.Split`, the result is never empty: the empty
string splits to one empty part. -/
def splitDot (s : String) : List String := (splitDotChars s.data).map (fun l => ⟨l⟩)

theorem splitDotChars_ne_nil (l : List Char) : splitDotChars l ≠ [] := by
  cases l with
  | nil => simp [splitDotChars]
  | cons c rest =>
    unfold splitDotChars
    by_cases h : c = '.'
    · simp [h]
    · simp only [h, if_false]
      rcases splitDotChars rest with _ | ⟨g, gs⟩ <;> simp

theorem splitDot_ne_nil (s : String) : splitDot s ≠ [] := by
  unfold splitDot
  intro h
  exact splitDotChars_ne_nil s.data (List.map_eq_nil_iff.mp h)

theorem List.lookup_append' {α β : Type} [BEq α] (l₁ l₂ : List (α × β)) (k : α) :
    (l₁ ++ l₂).lookup k = ((l₁.lookup k).orElse (fun _ => l₂.lookup k)) := by
  induction l₁ with
  | nil => simp [List.lookup]
  | cons kv rest ih =>
    by_cases h : k == kv.1
    · simp [List.lookup, h, Option.orElse]
    · simp [List.lookup, h, ih]

theorem lookup_map_addval (a b : Resource) (k : String) :
    (a.map (fun kv => (kv.1, kv.2 + b.get kv.1))).lookup k =
      (a.lookup k).map (fun v => v + b.get k) := by
  induction a with
  | nil => simp [List.lookup]
  | cons kv rest ih =>
    by_cases h : k == kv.1
    · have hk : k = kv.1 := by simpa using h
      simp [List.lookup, h, hk]
    · simp [List.lookup, h, ih]

theorem lookup_map_subval (a b : Resource) (k : String) :
    (a.map (fun kv => (kv.1, kv.2 - b.get kv.1))).lookup k =
      (a.lookup k).map (fun v => v - b.get k) := by
  induction a with
  | nil => simp [List.lookup]
  | cons kv rest ih =>
    by_cases h : k == kv.1
    · have hk : k = kv.1 := by simpa using h
      simp [List.lookup, h, hk]
    · simp [List.lookup, h, ih]

theorem lookup_filter_none (a b : Resource) (k : String) (ha : a.lookup k = none) :
    (b.filter (fun kv => (a.lookup kv.1).isNone)).lookup k = b.lookup k := by
  induction b with
  | nil => simp
  | cons kv rest ih =>
    by_cases h : k == kv.1
    · have hk : k = kv.1 := by simpa using h
      have : (a.lookup kv.1).isNone = true := by rw [← hk, ha]; rfl
      simp [List.filter, this, List.lookup, h]
    · by_cases hp : (a.lookup kv.1).isNone = true
      · simp [List.filter, hp, List.lookup, h, ih]
      · simp [List.filter, hp, List.lookup, h, ih]

theorem lookup_filter_some (a b : Resource) (k : String) (v : Int)
    (ha : a.lookup k = some v) :
    (b.filter (fun kv => (a.lookup kv.1).isNone)).lookup k = none := by
  induction b with
  | nil => simp
  | cons kv rest ih =>
    by_cases h : k == kv.1
    · have hk : k = kv.1 := by simpa using h
      have : (a.lookup kv.1).isNone = false := by rw [← hk, ha]; rfl
      simp [List.filter, this, ih]
    · by_cases hp : (a.lookup kv.1).isNone = true
      · simp [List.filter, hp, List.lookup, h, ih]
      · simp [List.filter, hp, List.lookup, h, ih]

theorem lookup_map_neg (l : List (String × Int)) (k : String) :
    (l.map (fun kv => (kv.1, -kv.2))).lookup k = (l.lookup k).map (fun v => -v) := by
  induction l with
  | nil => simp [List.lookup]
  | cons kv rest ih =>
    by_cases h : k == kv.1
    · simp [List.lookup, h]
    · simp [List.lookup, h, ih]

/-- Pointwise reading of addition. -/
theorem Resource.get_add (a b : Resource) (k : String) :
    (Resource.add a b).get k = a.get k + b.get k := by
  cases ha : a.lookup k with
  | some v =>
    have hl : (Resource.add a b).lookup k = some (v + b.get k) := by
      unfold Resource.add
      rw [List.lookup_append', lookup_map_addval, ha]
      rfl
    simp only [Resource.get, hl, ha]
  | none =>
    have hfil := lookup_filter_none a b k ha
    cases hb : b.lookup k with
    | some w =>
      have hl : (Resource.add a b).lookup k = some w := by
        unfold Resource.add
        rw [List.lookup_append', lookup_map_addval, ha, hfil, hb]
        rfl
      simp only [Resource.get, hl, ha, hb]
      omega
    | none =>
      have hl : (Resource.add a b).lookup k = none := by
        unfold Resource.add
        rw [List.lookup_append', lookup_map_addval, ha, hfil, hb]
        rfl
      simp only [Resource.get, hl, ha, hb]
      omega

/-- Pointwise reading of subtraction. -/
theorem Resource.get_sub (a b : Resource) (k : String) :
    (Resource.sub a b).get k = a.get k - b.get k := by
  cases ha : a.lookup k with
  | some v =>
    have hl : (Resource.sub a b).lookup k = some (v - b.get k) := by
      unfold Resource.sub
      rw [List.lookup_append', lookup_map_subval, ha]
      rfl
    simp only [Resource.get, hl, ha]
  | none =>
    have hfil := lookup_filter_none a b k ha
    cases hb : b.lookup k with
    | some w =>
      have hl : (Resource.sub a b).lookup k = some (-w) := by
        unfold Resource.sub
        rw [List.lookup_append', lookup_map_subval, ha, lookup_map_neg, hfil, hb]
        rfl
      simp only [Resource.get, hl, ha, hb]
      omega
    | none =>
      have hl : (Resource.sub a b).lookup k = none := by
        unfold Resource.sub
        rw [List.lookup_append', lookup_map_subval, ha, lookup_map_neg, hfil, hb]
        rfl
      simp only [Resource.get, hl, ha, hb]

      omega

namespace cache

/-- UserGroup (`security.UserGroup`): resolved user name plus group list.
Modelled from the spec (section 4.2): the security package is not part of
the sources. -/
structure UserGroup where
  user : String
  groups : List String
deriving DecidableEq

/-- ACL (`security.ACL`): either allow-all, or explicit user and group
lists.  Modelled from the spec (section 4.2): the security package is not
part of the sources. -/
structure ACL where
  allowAll : Bool
  users : List String
  groups : List String
deriving DecidableEq

/-- CheckAccess: true if the ACL is a wildcard, the user is listed, or any
of the user's groups is listed.  Modelled from the spec (section 4.2). -/
def ACL.checkAccess (acl : ACL) (ug : UserGroup) : Bool :=
  acl.allowAll || acl.users.contains ug.user ||
    ug.groups.any (fun g => acl.groups.contains g)

/-- Scheduling object states (the `objectState` FSM of the cache package:
New, Active, Draining, Stopped). -/
inductive ObjectState where
  | New
  | Active
  | Draining
  | Stopped
deriving DecidableEq

/-- QueueInfo: one queue of the hierarchy (`cache.QueueInfo`).  The Go
struct's `Parent *QueueInfo` back pointer is embedded positionally: the
operations that recurse to the parent take the list of ancestors
(`q :: ancestors`, root last) as their argument, and `Parent == nil`
corresponds to an empty ancestor list.  `children map[string]*QueueInfo`
is tracked by child name; the fields not touched by any verified
operation (properties, guaranteedResource, isManaged, stateTime) are
omitted. -/
structure QueueInfo where
  name : String
  maxResource : Option Resource
  allocatedResource : Resource
  isLeaf : Bool
  state : ObjectState
  children : List String
  submitACL : ACL
  adminACL : ACL
deriving DecidableEq

/-- IsDraining (`QueueInfo.IsDraining`). -/
def QueueInfo.IsDraining (q : QueueInfo) : Bool := q.state = ObjectState.Draining

/-- Guard of `IncAllocatedResource`: the queue has a max resource set and
the proposed new allocation does not fit in it
(`qi.maxResource != nil && !resources.FitIn(qi.maxResource, newAllocation)`). -/
def QueueInfo.overMax (q : QueueInfo) (newAllocation : Resource) : Bool :=
  match q.maxResource with
  | some m => !(Resource.fitIn m newAllocation)
  | none => false

/-- IncAllocatedResource (`QueueInfo.IncAllocatedResource`): increment the
allocated resources for this queue and recursively for its ancestors.  The
argument list is the queue followed by its ancestors up to the root.  The
result is the error returned by the Go method paired with the post-state of
the whole chain (the Go method mutates the queues in place). -/
def incAllocatedResource : List QueueInfo → Resource → Bool → Option String × List QueueInfo
  | [], _, _ => (none, [])
  | q :: parents, alloc, nodeReported =>
    let newAllocation := Resource.add q.allocatedResource alloc
    if !nodeReported && q.overMax newAllocation then
      (some "allocation puts queue over maximum allocation", q :: parents)
    else
      match incAllocatedResource parents alloc nodeReported with
      | (some e, ps) => (some e, q :: ps)
      | (none, ps) => (none, { q with allocatedResource := newAllocation } :: ps)

/-- DecAllocatedResource (`QueueInfo.decAllocatedResource`): decrement the
allocated resources for this queue and recursively for its ancestors,
guarding against going below zero.  The `alloc` pointer may be nil in Go,
hence the `Option Resource` argument; `resources.Sub` treats a nil right
operand as zero. -/
def QueueInfo.tooBig (q : QueueInfo) (alloc : Option Resource) : Bool :=
  match alloc with
  | some a => !(Resource.fitIn q.allocatedResource a)
  | none => false

def decAllocatedResource : List QueueInfo → Option Resource → Option String × List QueueInfo
  | [], _ => (none, [])
  | q :: parents, alloc =>
    if q.tooBig alloc then
      (some "released allocation is larger than queue allocation", q :: parents)
    else
      match decAllocatedResource parents alloc with
      | (some e, ps) => (some e, q :: ps)
      | (none, ps) =>
        (none, { q with allocatedResource :=
                  Resource.sub q.allocatedResource (alloc.getD Resource.nil) } :: ps)

/-- AddChildQueue (`QueueInfo.addChildQueue`): refuse on a leaf queue or on
a queue marked for deletion, otherwise record the child under its name
(the Go code stores the child in the `children` map, creating the map on
first use). -/
def addChildQueue (q : QueueInfo) (child : QueueInfo) : Except String QueueInfo :=
  if q.isLeaf then .error "cannot add a child queue to a leaf queue"
  else if q.IsDraining then
    .error "cannot add a child queue when queue is marked for deletion"
  else .ok { q with children :=
    if q.children.contains child.name then q.children else q.children ++ [child.name] }

/-- RemoveChildQueue (`QueueInfo.removeChildQueue`): delete the named child
from the children map.  The Go method performs no checks at all and cannot
fail; the name is lower-cased before the delete. -/
def removeChildQueue (q : QueueInfo) (nm : String) : QueueInfo :=
  { q with children := q.children.filter (fun c => c ≠ strToLower nm) }

/-- SetMaxResource (`QueueInfo.setMaxResource`): only the root queue (nil
parent, i.e. empty ancestor list) takes the new value (a clone of the
argument); on any other queue the method logs a warning and returns without
change. -/
def setMaxResource (q : QueueInfo) (parents : List QueueInfo) (max : Resource) : QueueInfo :=
  if !parents.isEmpty then q
  else { q with maxResource := some max.clone }

/-- CheckSubmitAccess (`QueueInfo.CheckSubmitAccess`): the submit ACL and
the admin ACL of the queue are consulted; on denial the walk continues at
the parent.  The argument is the queue followed by its ancestors. -/
def CheckSubmitAccess : List QueueInfo → UserGroup → Bool
  | [], _ => false
  | q :: parents, user =>
    let allow := q.submitACL.checkAccess user || q.adminACL.checkAccess user
    if !allow && !parents.isEmpty then CheckSubmitAccess parents user
    else allow

end cache

namespace cache

theorem inc_error_unchanged (r : Resource) (nodeReported : Bool) :
    ∀ path : List QueueInfo, (incAllocatedResource path r nodeReported).1.isSome = true →
      (incAllocatedResource path r nodeReported).2 = path := by
  intro path
  induction path with
  | nil => intro h; simp [incAllocatedResource] at h
  | cons q parents ih =>
    intro h
    by_cases hg : (!nodeReported && q.overMax (Resource.add q.allocatedResource r)) = true
    · simp [incAllocatedResource, hg]
    · rcases hrec : incAllocatedResource parents r nodeReported with ⟨e, ps⟩
      cases e with
      | some e0 =>
        have hps : ps = parents := by
          have := ih (by rw [hrec]; rfl)
          rw [hrec] at this; exact this
        simp [incAllocatedResource, hg, hrec, hps]
      | none =>
        simp [incAllocatedResource, hg, hrec] at h

theorem inc_ok_adds (r : Resource) (nodeReported : Bool) :
    ∀ path : List QueueInfo, (incAllocatedResource path r nodeReported).1 = none →
      (incAllocatedResource path r nodeReported).2 =
        path.map (fun q => { q with allocatedResource := Resource.add q.allocatedResource r }) := by
  intro path
  induction path with
  | nil => intro _; simp [incAllocatedResource]
  | cons q parents ih =>
    intro h
    by_cases hg : (!nodeReported && q.overMax (Resource.add q.allocatedResource r)) = true
    · simp [incAllocatedResource, hg] at h
    · rcases hrec : incAllocatedResource parents r nodeReported with ⟨e, ps⟩
      cases e with
      | some e0 => simp [incAllocatedResource, hg, hrec] at h
      | none =>
        have hps : ps = parents.map
            (fun q => { q with allocatedResource := Resource.add q.allocatedResource r }) := by
          have := ih (by rw [hrec])
          rw [hrec] at this; exact this
        simp [incAllocatedResource, hg, hrec, hps]

theorem inc_error_iff (r : Resource) :
    ∀ path : List QueueInfo, (incAllocatedResource path r false).1.isSome = true ↔
      ∃ q ∈ path, ∃ m, q.maxResource = some m ∧
        Resource.fitIn m (Resource.add q.allocatedResource r) = false := by
  intro path
  induction path with
  | nil => simp [incAllocatedResource]
  | cons q parents ih =>
    by_cases hg : q.overMax (Resource.add q.allocatedResource r) = true
    · constructor
      · intro _
        refine ⟨q, by simp, ?_⟩
        unfold QueueInfo.overMax at hg
        rcases hm : q.maxResource with _ | m
        · rw [hm] at hg; simp at hg
        · rw [hm] at hg
          exact ⟨m, rfl, by simpa using hg⟩
      · intro _; simp [incAllocatedResource, hg]
    · rcases hrec : incAllocatedResource parents r false with ⟨e, ps⟩
      have hq : ∀ m, q.maxResource = some m →
          Resource.fitIn m (Resource.add q.allocatedResource r) = true := by
        intro m hm
        unfold QueueInfo.overMax at hg
        rw [hm] at hg
        simpa using hg
      cases e with
      | some e0 =>
        constructor
        · intro _
          have : ∃ p ∈ parents, ∃ m, p.maxResource = some m ∧
              Resource.fitIn m (Resource.add p.allocatedResource r) = false := by
            rw [← ih, hrec]; rfl
          rcases this with ⟨p, hp, hrest⟩
          exact ⟨p, by simp [hp], hrest⟩
        · intro _; simp [incAllocatedResource, hg, hrec]
      | none =>
        constructor
        · intro habs; simp [incAllocatedResource, hg, hrec] at habs
        · rintro ⟨p, hp, m, hm, hfit⟩
          rcases List.mem_cons.mp hp with rfl | hp'
          · have := hq m hm
            rw [this] at hfit
            cases hfit
          · have : (incAllocatedResource parents r false).1.isSome = true :=
              ih.mpr ⟨p, hp', m, hm, hfit⟩
            rw [hrec] at this
            simp at this

theorem inc_nodeReported (r : Resource) :
    ∀ path : List QueueInfo, incAllocatedResource path r true =
      (none, path.map (fun q => { q with allocatedResource := Resource.add q.allocatedResource r })) := by
  intro path
  induction path with
  | nil => simp [incAllocatedResource]
  | cons q parents ih => simp [incAllocatedResource, ih]

end cache

/-- C1: with `nodeReported = false`, `IncAllocatedResource(r)` returns an
error exactly when the queue or one of its ancestors has a max resource
into which that queue's allocated resource plus `r` does not fit, and then
no queue on the chain is changed; on a nil return every queue on the chain
has had `r` added to its allocated resource.  With `nodeReported = true`
the cap check is skipped everywhere and the call always succeeds. -/
theorem c1_incAllocatedResource_spec (path : List cache.QueueInfo) (r : Resource) :
    ((cache.incAllocatedResource path r false).1.isSome = true ↔
      ∃ q ∈ path, ∃ m, q.maxResource = some m ∧
        Resource.fitIn m (Resource.add q.allocatedResource r) = false) ∧
    ((cache.incAllocatedResource path r false).1.isSome = true →
      (cache.incAllocatedResource path r false).2 = path) ∧
    ((cache.incAllocatedResource path r false).1 = none →
      (cache.incAllocatedResource path r false).2 =
        path.map (fun q => { q with allocatedResource := Resource.add q.allocatedResource r })) ∧
    (cache.incAllocatedResource path r true =
      (none, path.map (fun q => { q with allocatedResource := Resource.add q.allocatedResource r }))) :=
  ⟨cache.inc_error_iff r path, cache.inc_error_unchanged r false path,
   cache.inc_ok_adds r false path, cache.inc_nodeReported r path⟩

/-- Sample queue for the C1 witness: max {m:10}, allocated {m:5}. -/
def c1q : cache.QueueInfo :=
  { name := "root", maxResource := some [("m", 10)], allocatedResource := [("m", 5)],
    isLeaf := true, state := cache.ObjectState.Active, children := [],
    submitACL := ⟨false, [], []⟩, adminACL := ⟨false, [], []⟩ }

/-- Witness for C1: adding {m:6} to a queue holding {m:5} under max {m:10}
fails and leaves the chain unchanged. -/
theorem c1_witness :
    (cache.incAllocatedResource [c1q] [("m", 6)] false).1.isSome = true ∧
    (cache.incAllocatedResource [c1q] [("m", 6)] false).2 = [c1q] := by
  have h := c1_incAllocatedResource_spec [c1q] [("m", 6)]
  have he : (cache.incAllocatedResource [c1q] [("m", 6)] false).1.isSome = true :=
    h.1.mpr ⟨c1q, by simp, [("m", 10)], rfl, by decide⟩
  exact ⟨he, h.2.1 he⟩

namespace cache

theorem dec_error_unchanged (r : Option Resource) :
    ∀ path : List QueueInfo, (decAllocatedResource path r).1.isSome = true →
      (decAllocatedResource path r).2 = path := by
  intro path
  induction path with
  | nil => intro h; simp [decAllocatedResource] at h
  | cons q parents ih =>
    intro h
    by_cases hg : q.tooBig r = true
    · simp [decAllocatedResource, hg]
    · rcases hrec : decAllocatedResource parents r with ⟨e, ps⟩
      cases e with
      | some e0 =>
        have hps : ps = parents := by
          have := ih (by rw [hrec]; rfl)
          rw [hrec] at this; exact this
        simp [decAllocatedResource, hg, hrec, hps]
      | none =>
        simp [decAllocatedResource, hg, hrec] at h

theorem dec_ok_subtracts (r : Option Resource) :
    ∀ path : List QueueInfo, (decAllocatedResource path r).1 = none →
      (decAllocatedResource path r).2 =
        path.map (fun q =>
          { q with allocatedResource := Resource.sub q.allocatedResource (r.getD Resource.nil) }) := by
  intro path
  induction path with
  | nil => intro _; simp [decAllocatedResource]
  | cons q parents ih =>
    intro h
    by_cases hg : q.tooBig r = true
    · simp [decAllocatedResource, hg] at h
    · rcases hrec : decAllocatedResource parents r with ⟨e, ps⟩
      cases e with
      | some e0 => simp [decAllocatedResource, hg, hrec] at h
      | none =>
        have hps : ps = parents.map (fun q =>
            { q with allocatedResource := Resource.sub q.allocatedResource (r.getD Resource.nil) }) := by
          have := ih (by rw [hrec])
          rw [hrec] at this; exact this
        simp [decAllocatedResource, hg, hrec, hps]

theorem dec_error_iff (r : Resource) :
    ∀ path : List QueueInfo, (decAllocatedResource path (some r)).1.isSome = true ↔
      ∃ q ∈ path, Resource.fitIn q.allocatedResource r = false := by
  intro path
  induction path with
  | nil => simp [decAllocatedResource]
  | cons q parents ih =>
    by_cases hg : Resource.fitIn q.allocatedResource r = false
    · constructor
      · intro _; exact ⟨q, by simp, hg⟩
      · intro _; simp [decAllocatedResource, QueueInfo.tooBig, hg]
    · have hfit : Resource.fitIn q.allocatedResource r = true := by
        cases hx : Resource.fitIn q.allocatedResource r
        · exact absurd hx hg
        · rfl
      rcases hrec : decAllocatedResource parents (some r) with ⟨e, ps⟩
      cases e with
      | some e0 =>
        constructor
        · intro _
          have : ∃ p ∈ parents, Resource.fitIn p.allocatedResource r = false := by
            rw [← ih, hrec]; rfl
          rcases this with ⟨p, hp, hrest⟩
          exact ⟨p, by simp [hp], hrest⟩
        · intro _; simp [decAllocatedResource, QueueInfo.tooBig, hfit, hrec]
      | none =>
        constructor
        · intro habs; simp [decAllocatedResource, QueueInfo.tooBig, hfit, hrec] at habs
        · rintro ⟨p, hp, hpfit⟩
          rcases List.mem_cons.mp hp with rfl | hp'
          · rw [hfit] at hpfit; cases hpfit
          · have : (decAllocatedResource parents (some r)).1.isSome = true :=
              ih.mpr ⟨p, hp', hpfit⟩
            rw [hrec] at this
            simp at this

end cache

/-- C2: `decAllocatedResource(r)` for non-nil `r` returns an error exactly
when `r` does not fit into the allocated resource of the queue or of one
of its ancestors, and then no queue on the chain is changed; on a nil
return `r` has been subtracted from the allocated resource of every queue
on the chain up to the root. -/
theorem c2_decAllocatedResource_spec (path : List cache.QueueInfo) (r : Resource) :
    ((cache.decAllocatedResource path (some r)).1.isSome = true ↔
      ∃ q ∈ path, Resource.fitIn q.allocatedResource r = false) ∧
    ((cache.decAllocatedResource path (some r)).1.isSome = true →
      (cache.decAllocatedResource path (some r)).2 = path) ∧
    ((cache.decAllocatedResource path (some r)).1 = none →
      (cache.decAllocatedResource path (some r)).2 =
        path.map (fun q =>
          { q with allocatedResource := Resource.sub q.allocatedResource r })) :=
  ⟨cache.dec_error_iff r path, cache.dec_error_unchanged (some r) path,
   cache.dec_ok_subtracts (some r) path⟩

/-- Sample queue for the C2 witness: allocated {m:5}. -/
def c2q : cache.QueueInfo :=
  { name := "root", maxResource := none, allocatedResource := [("m", 5)],
    isLeaf := true, state := cache.ObjectState.Active, children := [],
    submitACL := ⟨false, [], []⟩, adminACL := ⟨false, [], []⟩ }

/-- Witness for C2: releasing {m:6} from a queue holding only {m:5} fails
and leaves the chain unchanged. -/
theorem c2_witness :
    (cache.decAllocatedResource [c2q] (some [("m", 6)])).1.isSome = true ∧
    (cache.decAllocatedResource [c2q] (some [("m", 6)])).2 = [c2q] := by
  have h := c2_decAllocatedResource_spec [c2q] [("m", 6)]
  have he : (cache.decAllocatedResource [c2q] (some [("m", 6)])).1.isSome = true :=
    h.1.mpr ⟨c2q, by simp, by decide⟩
  exact ⟨he, h.2.1 he⟩

/-- Queue used to refute C6: a queue in the Draining state that still has
a child named a. -/
def c6q : cache.QueueInfo :=
  { name := "p", maxResource := none, allocatedResource := [],
    isLeaf := false, state := cache.ObjectState.Draining, children := ["a"],
    submitACL := ⟨false, [], []⟩, adminACL := ⟨false, [], []⟩ }

/-- C6 counterexample: `removeChildQueue` does not fail on a Draining
queue — it removes the child anyway, so the claim that removeChild fails
when the queue is a leaf or Draining is false. -/
theorem c6_counterexample :
    c6q.state = cache.ObjectState.Draining ∧
      cache.removeChildQueue c6q "a" ≠ c6q ∧
      (cache.removeChildQueue c6q "a").children = [] := by
  refine ⟨rfl, ?_, by decide⟩
  intro h
  have := congrArg cache.QueueInfo.children h
  revert this
  decide

/-- C6 amended: `addChildQueue` fails exactly when the queue is a leaf or
Draining; `removeChildQueue` performs no checks and never fails: it
unconditionally deletes the (lower-cased) child name from the children
map, which is a no-op when the child is absent — even on a leaf or
Draining queue. -/
theorem c6_addChild_removeChild_spec (q c : cache.QueueInfo) (nm : String) :
    ((∃ e, cache.addChildQueue q c = Except.error e) ↔
      (q.isLeaf = true ∨ q.state = cache.ObjectState.Draining)) ∧
    ((cache.removeChildQueue q nm).children =
      q.children.filter (fun x => x ≠ strToLower nm)) ∧
    (strToLower nm ∉ q.children → cache.removeChildQueue q nm = q) := by
  refine ⟨⟨?_, ?_⟩, rfl, ?_⟩
  · intro ⟨e, he⟩
    by_cases hl : q.isLeaf = true
    · exact Or.inl hl
    · right
      by_cases hd : q.IsDraining = true
      · simpa [cache.QueueInfo.IsDraining] using hd
      · simp [cache.addChildQueue, hl, hd] at he
  · intro h
    rcases h with hl | hd
    · exact ⟨"cannot add a child queue to a leaf queue",
        by simp [cache.addChildQueue, hl]⟩
    · by_cases hl : q.isLeaf = true
      · exact ⟨"cannot add a child queue to a leaf queue",
          by simp [cache.addChildQueue, hl]⟩
      · have hdr : q.IsDraining = true := by
          simp [cache.QueueInfo.IsDraining, hd]
        exact ⟨"cannot add a child queue when queue is marked for deletion",
          by simp [cache.addChildQueue, hl, hdr]⟩
  · intro habs
    have hf : q.children.filter (fun x => x ≠ strToLower nm) = q.children := by
      apply List.filter_eq_self.mpr
      intro x hx
      simp only [ne_eq, decide_eq_true_eq]
      intro hxeq
      exact habs (hxeq ▸ hx)
    unfold cache.removeChildQueue
    rw [hf]

/-- Witness for the amended C6: on an Active non-leaf queue with no
children, adding a child succeeds and removing an absent child is a
no-op. -/
theorem c6_witness :
    (¬∃ e, cache.addChildQueue
      { name := "p", maxResource := none, allocatedResource := [],
        isLeaf := false, state := cache.ObjectState.Active, children := [],
        submitACL := ⟨false, [], []⟩, adminACL := ⟨false, [], []⟩ } c6q = Except.error e) ∧
    cache.removeChildQueue
      { name := "p", maxResource := none, allocatedResource := [],
        isLeaf := false, state := cache.ObjectState.Active, children := [],
        submitACL := ⟨false, [], []⟩, adminACL := ⟨false, [], []⟩ } "a" =
      { name := "p", maxResource := none, allocatedResource := [],
        isLeaf := false, state := cache.ObjectState.Active, children := [],
        submitACL := ⟨false, [], []⟩, adminACL := ⟨false, [], []⟩ } := by
  constructor
  · intro he
    have h := (c6_addChild_removeChild_spec
      { name := "p", maxResource := none, allocatedResource := [],
        isLeaf := false, state := cache.ObjectState.Active, children := [],
        submitACL := ⟨false, [], []⟩, adminACL := ⟨false, [], []⟩ } c6q "a").1.mp he
    revert h
    decide
  · exact (c6_addChild_removeChild_spec
      { name := "p", maxResource := none, allocatedResource := [],
        isLeaf := false, state := cache.ObjectState.Active, children := [],
        submitACL := ⟨false, [], []⟩, adminACL := ⟨false, [], []⟩ } c6q "a").2.2 (by decide)

/-- C7: CheckSubmitAccess on a queue returns true exactly when some queue
on the path from it up to the root (itself included) has a submit or an
admin ACL that admits the user; no other queue influences the result. -/
theorem c7_checkSubmitAccess_spec (q : cache.QueueInfo) (anc : List cache.QueueInfo)
    (u : cache.UserGroup) :
    cache.CheckSubmitAccess (q :: anc) u =
      (q :: anc).any (fun p => p.submitACL.checkAccess u || p.adminACL.checkAccess u) := by
  induction anc generalizing q with
  | nil => simp [cache.CheckSubmitAccess]
  | cons p rest ih =>
    have hunf : cache.CheckSubmitAccess (q :: p :: rest) u =
        (if !(q.submitACL.checkAccess u || q.adminACL.checkAccess u) &&
            !((p :: rest).isEmpty)
         then cache.CheckSubmitAccess (p :: rest) u
         else (q.submitACL.checkAccess u || q.adminACL.checkAccess u)) := rfl
    rw [hunf]
    by_cases h : (q.submitACL.checkAccess u || q.adminACL.checkAccess u) = true
    · simp [h]
    · simp only [Bool.not_eq_true] at h
      simp [h, ih p]

/-- C8: setMaxResource on a queue with a parent returns with the queue
completely unchanged; on the root (no parent) it sets maxResource to a
clone of the argument. -/
theorem c8_setMaxResource_spec (q : cache.QueueInfo) (parents : List cache.QueueInfo)
    (m : Resource) :
    (parents ≠ [] → cache.setMaxResource q parents m = q) ∧
    (parents = [] → cache.setMaxResource q parents m =
      { q with maxResource := some m.clone }) := by
  constructor
  · intro h
    cases parents with
    | nil => exact absurd rfl h
    | cons p ps => simp [cache.setMaxResource]
  · intro h
    subst h
    simp [cache.setMaxResource]

/-- Witness for C8 at a concrete queue: a non-root call is the identity
and a root call installs the max. -/
theorem c8_witness :
    cache.setMaxResource c2q [c1q] [("m", 7)] = c2q ∧
    cache.setMaxResource c2q [] [("m", 7)] =
      { c2q with maxResource := some [("m", 7)] } := by
  constructor
  · exact (c8_setMaxResource_spec c2q [c1q] [("m", 7)]).1 (by simp)
  · exact (c8_setMaxResource_spec c2q [] [("m", 7)]).2 rfl

namespace scheduler

/-- Path separator (`configs.DOT`). -/
def DOT : String := "."

/-- Name of the root queue (`configs.RootQueue`). -/
def RootQueue : String := "root"

/-- Read from a Go map embedded as an association list. -/
def mapGet {α : Type} (m : List (String × α)) (k : String) : Option α := m.lookup k

/-- Write to a Go map: replace any existing entry for the key. -/
def mapPut {α : Type} (m : List (String × α)) (k : String) (v : α) : List (String × α) :=
  m.filter (fun kv => kv.1 ≠ k) ++ [(k, v)]

/-- Delete from a Go map. -/
def mapDel {α : Type} (m : List (String × α)) (k : String) : List (String × α) :=
  m.filter (fun kv => kv.1 ≠ k)

/-- Allocation (`objects.Allocation`): immutable record of a committed
placement.  The fields not touched by the verified operations (result,
reservedNodeID, priority, the ask) are omitted. -/
structure Allocation where
  uuid : String
  allocationKey : String
  applicationID : String
  nodeID : String
  allocatedResource : Resource
deriving DecidableEq

/-- Node (`objects.Node`).  Modelled from the spec (sections 3 and 4.5):
the objects package is not part of the sources.  `reservations` holds the
per-application reserved-ask counts that `UnReserveApps` reports during
node removal. -/
structure Node where
  nodeID : String
  capacity : Resource
  occupied : Resource
  available : Resource
  allocations : List Allocation
  schedulable : Bool
  reservations : List (String × Int)
deriving DecidableEq

/-- AddAllocation on a node: subtract from available, with an idempotent
guard against duplicate UUIDs.  Modelled from the spec (section 4.5). -/
def Node.addAllocation (n : Node) (a : Allocation) : Node :=
  if n.allocations.any (fun x => x.uuid = a.uuid) then n
  else { n with
    allocations := n.allocations ++ [a],
    available := Resource.sub n.available a.allocatedResource }

/-- RemoveAllocation on a node: return the prior allocation (or none) and
credit its resource back to available.  Modelled from the spec
(section 4.5). -/
def Node.removeAllocation (n : Node) (uuid : String) : Option Allocation × Node :=
  match n.allocations.find? (fun x => x.uuid = uuid) with
  | none => (none, n)
  | some a => (some a,
      { n with
        allocations := n.allocations.filter (fun x => x.uuid ≠ uuid),
        available := Resource.add n.available a.allocatedResource })

/-- UnReserveApps: the `(appID, askCount)` pairs to be credited back to the
partition during node removal.  Modelled from the spec (section 4.5). -/
def Node.unReserveApps (n : Node) : List (String × Int) := n.reservations

/-- Application (`objects.Application`).  Modelled from the spec
(sections 3 and 4.4): the objects package is not part of the sources.
The pending-ask book is not touched by the verified operations and is
omitted; `reservations` is the set of node IDs the application is
reserved on. -/
structure Application where
  applicationID : String
  queueName : String
  user : cache.UserGroup
  allocations : List Allocation
  reservations : List String
deriving DecidableEq

/-- AddAllocation on an application: store under the UUID (a Go map write,
so a same-UUID entry is replaced). -/
def Application.addAllocation (app : Application) (a : Allocation) : Application :=
  { app with allocations := app.allocations.filter (fun x => x.uuid ≠ a.uuid) ++ [a] }

/-- RemoveAllocation on an application: return the prior allocation (or
none) and drop it from the allocation map. -/
def Application.removeAllocation (app : Application) (uuid : String) :
    Option Allocation × Application :=
  match app.allocations.find? (fun x => x.uuid = uuid) with
  | none => (none, app)
  | some a => (some a,
      { app with allocations := app.allocations.filter (fun x => x.uuid ≠ uuid) })

/-- IsReservedOnNode (`Application.IsReservedOnNode`). -/
def Application.isReservedOnNode (app : Application) (nodeID : String) : Bool :=
  app.reservations.contains nodeID

/-- Reserve on an application (`Application.Reserve`): fails if the
application is already reserved on the node, otherwise records the
reservation in the application and the node tables.  Modelled from the
spec (section 4.4). -/
def Application.reserveOn (app : Application) (n : Node) :
    Except String (Application × Node) :=
  if app.reservations.contains n.nodeID then .error "app already reserved on node"
  else .ok ({ app with reservations := app.reservations ++ [n.nodeID] },
    { n with reservations :=
        match mapGet n.reservations app.applicationID with
        | some c => mapPut n.reservations app.applicationID (c + 1)
        | none => mapPut n.reservations app.applicationID 1 })

/-- UnReserve on an application (`Application.UnReserve`): idempotent;
returns the number of reservations actually removed.  Modelled from the
spec (section 4.4). -/
def Application.unReserveOn (app : Application) (n : Node) :
    Int × Application × Node :=
  if app.reservations.contains n.nodeID then
    (1, { app with reservations := app.reservations.filter (fun x => x ≠ n.nodeID) },
      { n with reservations :=
          match mapGet n.reservations app.applicationID with
          | some c => if c ≤ 1 then mapDel n.reservations app.applicationID
                      else mapPut n.reservations app.applicationID (c - 1)
          | none => n.reservations })
  else (0, app, n)

/-- Queue (`objects.Queue`): the scheduler-side queue hierarchy, embedded
as a tree (the Go struct links parent and children by pointers).  Modelled
from the spec (sections 3 and 4.3) and from the cache implementation of
the same contract (`cache.QueueInfo` in the sources): the objects package
is not part of the sources.  `applications` is tracked by application ID
and `reservations` is the queue's per-application reservation counter. -/
inductive Queue where
  | mk (name : String) (isLeaf : Bool) (maxResource : Option Resource)
       (allocatedResource : Resource) (submitACL : cache.ACL) (adminACL : cache.ACL)
       (state : cache.ObjectState) (applications : List String)
       (reservations : List (String × Int)) (children : List Queue)

def Queue.name : Queue → String
  | .mk nm _ _ _ _ _ _ _ _ _ => nm

def Queue.isLeaf : Queue → Bool
  | .mk _ l _ _ _ _ _ _ _ _ => l

def Queue.maxResource : Queue → Option Resource
  | .mk _ _ m _ _ _ _ _ _ _ => m

def Queue.allocatedResource : Queue → Resource
  | .mk _ _ _ a _ _ _ _ _ _ => a

def Queue.submitACL : Queue → cache.ACL
  | .mk _ _ _ _ s _ _ _ _ _ => s

def Queue.adminACL : Queue → cache.ACL
  | .mk _ _ _ _ _ a _ _ _ _ => a

def Queue.state : Queue → cache.ObjectState
  | .mk _ _ _ _ _ _ s _ _ _ => s

def Queue.applications : Queue → List String
  | .mk _ _ _ _ _ _ _ apps _ _ => apps

def Queue.reservations : Queue → List (String × Int)
  | .mk _ _ _ _ _ _ _ _ r _ => r

def Queue.children : Queue → List Queue
  | .mk _ _ _ _ _ _ _ _ _ c => c

/-- GetChildQueue (`Queue.GetChildQueue`): lookup of a direct child by its
(lower-case) name in the children map. -/
def Queue.getChildQueue (q : Queue) (nm : String) : Option Queue :=
  q.children.find? (fun c => c.name = nm)

/-- Walk from a queue down along the remaining path segments, mirroring
the loop of `PartitionContext.getQueue`: break out and return nil as soon
as a child is not found. -/
def walkQueue : Queue → List String → Option Queue
  | q, [] => some q
  | q, p :: rest =>
    match q.getChildQueue p with
    | none => none
    | some c => walkQueue c rest

/-- GetQueue by fully qualified name
(`PartitionContext.getQueue`, partition.go lines 426-442): lower-case the
name, split on dots, require the first part to be `root`, then walk down
the children. -/
def getQueue (root : Queue) (name : String) : Option Queue :=
  match splitDot (strToLower name) with
  | [] => none
  | p0 :: rest => if p0 ≠ RootQueue then none else walkQueue root rest

/-- Walk like `walkQueue` but also collect the ancestors of the target
(root first). -/
def collectPath : Queue → List String → Option (List Queue × Queue)
  | q, [] => some ([], q)
  | q, p :: rest =>
    match q.getChildQueue p with
    | none => none
    | some c => (collectPath c rest).map (fun ap => (q :: ap.1, ap.2))

/-- Locate a queue by fully qualified name, also returning its ancestor
chain (root first). -/
def locate (root : Queue) (name : String) : Option (List Queue × Queue) :=
  match splitDot (strToLower name) with
  | [] => none
  | p0 :: rest => if p0 ≠ RootQueue then none else collectPath root rest

/-- Rebuild the tree after updating the queue at the given path with `f`
(the Go code mutates that queue in place through a pointer). -/
def updateAt (q : Queue) (path : List String) (f : Queue → Queue) : Queue :=
  match path with
  | [] => f q
  | p :: rest =>
    .mk q.name q.isLeaf q.maxResource q.allocatedResource q.submitACL q.adminACL
      q.state q.applications q.reservations
      (q.children.map (fun c => if c.name = p then updateAt c rest f else c))

/-- Guard of the queue max check, as in the cache implementation. -/
def Queue.overMax (q : Queue) (newAllocation : Resource) : Bool :=
  match q.maxResource with
  | some m => !(Resource.fitIn m newAllocation)
  | none => false

/-- IncAllocatedResource (`Queue.IncAllocatedResource`) expressed on the
tree: the Go method is called on the target queue and recurses to the
root through parent pointers; here the same checks and updates are applied
along the root-to-target path.  Error exactly when some queue on the path
would go over its max (unless `nodeReported`); on error nothing changes. -/
def incAllocatedTree (q : Queue) (path : List String) (alloc : Resource)
    (nodeReported : Bool) : Except String Queue :=
  let newAllocation := Resource.add q.allocatedResource alloc
  if !nodeReported && q.overMax newAllocation then
    .error "allocation puts queue over maximum allocation"
  else
    match path with
    | [] => .ok (.mk q.name q.isLeaf q.maxResource newAllocation q.submitACL q.adminACL
        q.state q.applications q.reservations q.children)
    | p :: rest =>
      match q.getChildQueue p with
      | none => .error "queue not found"
      | some c =>
        match incAllocatedTree c rest alloc nodeReported with
        | .error e => .error e
        | .ok c' => .ok (.mk q.name q.isLeaf q.maxResource newAllocation q.submitACL
            q.adminACL q.state q.applications q.reservations
            (q.children.map (fun d => if d.name = p then c' else d)))

/-- DecAllocatedResource (`Queue.DecAllocatedResource`) expressed on the
tree, like `incAllocatedTree`: releasing more than is held at any queue on
the path is an error and nothing changes. -/
def decAllocatedTree (q : Queue) (path : List String) (alloc : Resource) :
    Except String Queue :=
  if !(Resource.fitIn q.allocatedResource alloc) then
    .error "released allocation is larger than queue allocation"
  else
    match path with
    | [] => .ok (.mk q.name q.isLeaf q.maxResource
        (Resource.sub q.allocatedResource alloc) q.submitACL q.adminACL
        q.state q.applications q.reservations q.children)
    | p :: rest =>
      match q.getChildQueue p with
      | none => .error "queue not found"
      | some c =>
        match decAllocatedTree c rest alloc with
        | .error e => .error e
        | .ok c' => .ok (.mk q.name q.isLeaf q.maxResource
            (Resource.sub q.allocatedResource alloc) q.submitACL
            q.adminACL q.state q.applications q.reservations
            (q.children.map (fun d => if d.name = p then c' else d)))

/-- IncAllocatedResource addressed by the application's fully qualified
queue name (the Go code reaches the queue through `app.GetQueue()`). -/
def incAllocatedByName (root : Queue) (name : String) (alloc : Resource)
    (nodeReported : Bool) : Except String Queue :=
  match splitDot (strToLower name) with
  | [] => .error "queue not found"
  | p0 :: rest =>
    if p0 ≠ RootQueue then .error "queue not found"
    else incAllocatedTree root rest alloc nodeReported

/-- DecAllocatedResource addressed by the application's fully qualified
queue name. -/
def decAllocatedByName (root : Queue) (name : String) (alloc : Resource) :
    Except String Queue :=
  match splitDot (strToLower name) with
  | [] => .error "queue not found"
  | p0 :: rest =>
    if p0 ≠ RootQueue then .error "queue not found"
    else decAllocatedTree root rest alloc

/-- SetMaxResource on the root queue (`pc.root.SetMaxResource(total)`):
the root has no parent, so the max is set to a clone of the argument. -/
def setRootMax (q : Queue) (m : Resource) : Queue :=
  .mk q.name q.isLeaf (some m.clone) q.allocatedResource q.submitACL q.adminACL
    q.state q.applications q.reservations q.children

/-- CheckSubmitAccess walk over the leaf-to-root chain of queues, the
same contract as the cache implementation (`CheckSubmitAccess` walks to
the parent on denial). -/
def submitAccessList : List Queue → cache.UserGroup → Bool
  | [], _ => false
  | q :: parents, user =>
    let allow := q.submitACL.checkAccess user || q.adminACL.checkAccess user
    if !allow && !parents.isEmpty then submitAccessList parents user
    else allow

end scheduler

namespace scheduler

/-- PartitionContext (`scheduler.PartitionContext`, partition.go).  The Go
maps become association lists; `placement` abstracts the placement
manager: `none` is an uninitialised manager (no placement rules), `some f`
is an initialised rule chain where `f app` is the outcome of
`PlaceApplication` (error, or the queue name it stored in
`app.QueueName`).  Modelled from the spec (section 4.6) for the placement
part: the placement package is not part of the sources. -/
structure PartitionContext where
  name : String
  state : cache.ObjectState
  root : Queue
  applications : List (String × Application)
  reservedApps : List (String × Int)
  nodes : List (String × Node)
  allocations : List (String × Allocation)
  totalPartitionResource : Option Resource
  placement : Option (Application → Except String String)

/-- IsDraining (`PartitionContext.isDraining`). -/
def PartitionContext.isDraining (pc : PartitionContext) : Bool :=
  pc.state = cache.ObjectState.Draining

/-- IsStopped (`PartitionContext.isStopped`). -/
def PartitionContext.isStopped (pc : PartitionContext) : Bool :=
  pc.state = cache.ObjectState.Stopped

/-- UnReserveCount (`PartitionContext.unReserveCount`, partition.go lines
862-871): when the app has an entry, delete it if the released ask count
equals the stored count, otherwise subtract. -/
def unReserveCount (m : List (String × Int)) (appID : String) (asks : Int) :
    List (String × Int) :=
  match mapGet m appID with
  | none => m
  | some num => if num = asks then mapDel m appID else mapPut m appID (num - asks)

/-- Fold `unReserveCount` over the pairs reported by `Node.UnReserveApps`
(the loop in `removeNodeInternal`). -/
def applyUnReserve (m : List (String × Int)) : List (String × Int) → List (String × Int)
  | [] => m
  | (appID, asks) :: rest => applyUnReserve (unReserveCount m appID asks) rest

/-- AddAllocation (`PartitionContext.addAllocation`, partition.go lines
929-991): recover a node-reported allocation.  All checks happen before
any mutation, and the queue increment uses the node-reported path, so it
cannot hit a max.  Where Go would dereference a nil queue pointer
(an application that was never linked to a queue) the embedding returns an
error instead. -/
def addAllocation (pc : PartitionContext) (alloc : Allocation) :
    Option String × PartitionContext :=
  if pc.isStopped then (some "partition is stopped cannot add new allocation", pc)
  else if alloc.uuid = "" then (some "failing to restore allocation: missing UUID", pc)
  else
    match mapGet pc.nodes alloc.nodeID with
    | none => (some "failed to find node", pc)
    | some node =>
      match mapGet pc.applications alloc.applicationID with
      | none => (some "failed to find application", pc)
      | some app =>
        if !node.schedulable then (some "node is not in schedulable state", pc)
        else
          match incAllocatedByName pc.root app.queueName alloc.allocatedResource true with
          | .error e => (some e, pc)
          | .ok root1 =>
            (none, { pc with
              root := root1,
              nodes := mapPut pc.nodes alloc.nodeID (node.addAllocation alloc),
              applications := mapPut pc.applications alloc.applicationID
                (app.addAllocation alloc),
              allocations := mapPut pc.allocations alloc.uuid alloc })

/-- The replay loop of `AddNode`: add the existing allocations one by one,
stopping at the first error. -/
def replayAllocations (pc : PartitionContext) :
    List Allocation → Option String × PartitionContext
  | [] => (none, pc)
  | a :: rest =>
    match addAllocation pc a with
    | (some e, pc1) => (some e, pc1)
    | (none, pc1) => replayAllocations pc1 rest

/-- The loop of `removeNodeAllocations` (partition.go lines 628-664): for
every allocation still registered on the node, skip it when its
application (or the allocation on the application) is gone, otherwise
remove it from the application, release its resource from the queue
hierarchy (a failure there is only logged), and report it as released. -/
def removeNodeAllocationsLoop (pc : PartitionContext) :
    List Allocation → List Allocation × PartitionContext
  | [] => ([], pc)
  | alloc :: rest =>
    match mapGet pc.applications alloc.applicationID with
    | none => removeNodeAllocationsLoop pc rest
    | some app =>
      match app.removeAllocation alloc.uuid with
      | (none, _) => removeNodeAllocationsLoop pc rest
      | (some _, app1) =>
        let pc1 := { pc with
          applications := mapPut pc.applications alloc.applicationID app1 }
        let pc2 := match decAllocatedByName pc1.root app.queueName alloc.allocatedResource with
          | .error _ => pc1
          | .ok root1 => { pc1 with root := root1 }
        let rp := removeNodeAllocationsLoop pc2 rest
        (alloc :: rp.1, rp.2)

/-- RemoveNodeInternal (`PartitionContext.removeNodeInternal`, partition.go
lines 590-623): missing node returns nil; otherwise drop the node, detach
its allocations, subtract its capacity from the partition total, reset the
root max, and credit back the reservations the node held.  Go dereferences
`totalPartitionResource` unconditionally here; the embedding reads a nil
total as the zero resource. -/
def removeNodeInternal (pc : PartitionContext) (nodeID : String) :
    List Allocation × PartitionContext :=
  match mapGet pc.nodes nodeID with
  | none => ([], pc)
  | some node =>
    let pc1 := { pc with nodes := mapDel pc.nodes nodeID }
    let rp := removeNodeAllocationsLoop pc1 node.allocations
    let total := Resource.sub (rp.2.totalPartitionResource.getD Resource.nil) node.capacity
    let pc3 := { rp.2 with
      totalPartitionResource := some total,
      root := setRootMax rp.2.root total }
    let pc4 := { pc3 with
      reservedApps := applyUnReserve pc3.reservedApps node.unReserveApps }
    (rp.1, pc4)

/-- RemoveNode (`PartitionContext.removeNode`): the locking wrapper around
`removeNodeInternal`. -/
def removeNode (pc : PartitionContext) (nodeID : String) :
    List Allocation × PartitionContext :=
  removeNodeInternal pc nodeID

/-- AddNode (`PartitionContext.AddNode`, partition.go lines 524-579).
A nil node pointer is the `none` argument.  On success the node capacity
has been added to the partition total, the root max set to the new total,
and every existing allocation replayed through `addAllocation`; the first
replay failure rolls the node back out through `removeNodeInternal`. -/
def AddNode (pc : PartitionContext) (node : Option Node)
    (existingAllocations : List Allocation) : Option String × PartitionContext :=
  match node with
  | none => (some "cannot add nil node to partition", pc)
  | some node =>
    if pc.isDraining || pc.isStopped then
      (some "partition is stopped cannot add a new node", pc)
    else if (mapGet pc.nodes node.nodeID).isSome then
      (some "partition has an existing node, node name must be unique", pc)
    else
      let total := match pc.totalPartitionResource with
        | none => node.capacity.clone
        | some t => Resource.add t node.capacity
      let pc1 := { pc with
        totalPartitionResource := some total,
        root := setRootMax pc.root total,
        nodes := mapPut pc.nodes node.nodeID node }
      match replayAllocations pc1 existingAllocations with
      | (some e, pc2) => (some e, (removeNodeInternal pc2 node.nodeID).2)
      | (none, pc2) => (none, pc2)

end scheduler

namespace scheduler

/-- Test that one string starts with another (`strings.HasPrefix`), over character lists so
the kernel can evaluate it. -/
def strStartsWith (s pre : String) : Bool := s.data.take pre.data.length = pre.data

/-- Join path segments with dots (inverse of `splitDot`). -/
def joinDot (parts : List String) : String := String.intercalate DOT parts

/-- Queue name validation (`configs.QueueNameRegExp`): alphanumeric, `-`
or `_`, 1 to 64 characters.  Modelled from the spec (section 6, config
shape): the configs package is not part of the sources. -/
def validQueueName (s : String) : Bool :=
  decide (1 ≤ s.data.length) && decide (s.data.length ≤ 64) &&
    s.data.all (fun c => c.isAlphanum || c = '_' || c = '-')

/-- Fresh dynamic queue (`objects.NewDynamicQueue`): unmanaged, lower-cased
name, empty ACLs, no resources, state New.  Modelled from the spec
(section 3, lifecycles) and the cache implementation
(`NewUnmanagedQueue`). -/
def mkDynamicQueue (nm : String) (leaf : Bool) : Queue :=
  .mk (strToLower nm) leaf none Resource.nil ⟨false, [], []⟩ ⟨false, [], []⟩
    cache.ObjectState.New [] [] []

/-- The creation loop of `createQueue`: each segment is validated against
the queue name rule, then linked under its parent, which fails when the
parent is a leaf or Draining (`addChildQueue` semantics); freshly created
parents are non-leaf and New, so only the first link can fail.  The list
runs shallowest segment first; the deepest created queue is the leaf. -/
def buildDynamic (parent : Queue) : List String → Except String Queue
  | [] => .ok parent
  | n :: rest =>
    if !(validQueueName n) then .error "invalid queue name"
    else if parent.isLeaf then .error "cannot add a child queue to a leaf queue"
    else if parent.state = cache.ObjectState.Draining then
      .error "cannot add a child queue when queue is marked for deletion"
    else
      match buildDynamic (mkDynamicQueue n rest.isEmpty) rest with
      | .error e => .error e
      | .ok child =>
        .ok (.mk parent.name parent.isLeaf parent.maxResource
          parent.allocatedResource parent.submitACL parent.adminACL parent.state
          parent.applications parent.reservations
          (parent.children.filter (fun c => c.name ≠ child.name) ++ [child]))

/-- The strip loop of `createQueue` (partition.go lines 459-466): walk the
name towards the root until an existing queue is found, collecting the
segments that must be created (deepest stripped first, so the returned
list is shallowest-first).  The argument carries the remaining segments in
reverse.  Go panics (slice out of range) when the first segment is a
non-`root` name without a dot to strip; the embedding returns `none`
there. -/
def createQueueLoopRev (root : Queue) :
    List String → List String → Option ((List Queue × Queue) × List String × List String)
  | rev, toCreate =>
    match locate root (joinDot rev.reverse) with
    | some aq => some (aq, rev.reverse, toCreate)
    | none =>
      match rev with
      | [] => none
      | last :: front => createQueueLoopRev root front (last :: toCreate)

/-- CreateQueue (`PartitionContext.createQueue`, partition.go lines
453-490): find the deepest existing ancestor of the requested name, check
submit access on it and that it is not a leaf, then create the missing
queues down to the leaf.  Returns the new root of the queue tree. -/
def createQueue (root : Queue) (name : String) (user : cache.UserGroup) :
    Except String Queue :=
  if !(strStartsWith name RootQueue) || !(name.data.contains '.') then
    .error "illegal queue name passed in"
  else
    match createQueueLoopRev root (splitDot name).reverse [] with
    | none => .error "illegal queue name passed in"
    | some (aq, current, toCreate) =>
      if !(submitAccessList (aq.2 :: aq.1.reverse) user) then
        .error "submit access to queue denied during create"
      else if aq.2.isLeaf then
        .error "creation of queue failed parent is already a leaf"
      else
        match buildDynamic aq.2 toCreate with
        | .error e => .error e
        | .ok q1 =>
          let pathTail := match splitDot (strToLower (joinDot current)) with
            | [] => []
            | _ :: rest => rest
          .ok (updateAt root pathTail (fun _ => q1))

/-- AddApplication to a queue (`Queue.AddApplication`): store the
application under its ID in the queue's application map. -/
def addAppToQueue (q : Queue) (appID : String) : Queue :=
  .mk q.name q.isLeaf q.maxResource q.allocatedResource q.submitACL q.adminACL
    q.state (q.applications.filter (fun x => x ≠ appID) ++ [appID])
    q.reservations q.children

/-- The placement step of `AddApplication`: with no placement manager the
submitted queue name is used verbatim; with one, `PlaceApplication` must
succeed and store a non-empty queue name on the application. -/
def resolveQueueName (pc : PartitionContext) (app : Application) :
    Except String (String × Application) :=
  match pc.placement with
  | none => .ok (app.queueName, app)
  | some f =>
    match f app with
    | .error _ => .error "failed to place application"
    | .ok qn =>
      if qn = "" then .error "application rejected by placement rules"
      else .ok (qn, { app with queueName := qn })

/-- The commit tail of `AddApplication`: the resolved queue must be a leaf
that grants the user submit access; then the application is linked to the
queue (`app.SetQueue(queue)` stores the queue path, which is the
lower-cased fully qualified name) and stored in the partition map. -/
def finishAdd (pc : PartitionContext) (app1 : Application) (queueName : String)
    (aq : List Queue × Queue) : Option String × PartitionContext :=
  if !(aq.2.isLeaf) || !(submitAccessList (aq.2 :: aq.1.reverse) app1.user) then
    (some "failed to find queue for application", pc)
  else
    let canonical := strToLower queueName
    let app2 := { app1 with queueName := canonical }
    let pathTail := match splitDot canonical with
      | [] => []
      | _ :: rest => rest
    (none, { pc with
      root := updateAt pc.root pathTail (fun q => addAppToQueue q app2.applicationID),
      applications := mapPut pc.applications app2.applicationID app2 })

/-- AddApplication (`PartitionContext.AddApplication`, partition.go lines
278-329): reject when the partition is Draining or Stopped or the
application ID exists; run placement; locate the queue, creating the rule
based hierarchy when placement is active; require a leaf with submit
access; then link application and queue. -/
def AddApplication (pc : PartitionContext) (app : Application) :
    Option String × PartitionContext :=
  if pc.isDraining || pc.isStopped then
    (some "partition is stopped cannot add a new application", pc)
  else if (mapGet pc.applications app.applicationID).isSome then
    (some "adding application to partition, but application already existed", pc)
  else
    match resolveQueueName pc app with
    | .error e => (some e, pc)
    | .ok (queueName, app1) =>
      match locate pc.root queueName with
      | some aq => finishAdd pc app1 queueName aq
      | none =>
        if pc.placement.isNone then
          (some "application rejected, cannot create queue without placement rules", pc)
        else
          match createQueue pc.root queueName app1.user with
          | .error _ => (some "failed to create rule based queue", pc)
          | .ok root1 =>
            let pc2 := { pc with root := root1 }
            match locate root1 queueName with
            | some aq => finishAdd pc2 app1 queueName aq
            | none => (some "failed to create rule based queue", pc2)

/-- Reserve on the queue (`Queue.Reserve`): increment the queue's
reservation counter for the application; the Go code reaches the queue
through `app.GetQueue()`.  Modelled from the spec (section 3, queue
attributes). -/
def queueReserve (root : Queue) (queueName : String) (appID : String) : Queue :=
  match splitDot (strToLower queueName) with
  | [] => root
  | p0 :: rest =>
    if p0 ≠ RootQueue then root
    else updateAt root rest (fun q =>
      .mk q.name q.isLeaf q.maxResource q.allocatedResource q.submitACL q.adminACL
        q.state q.applications
        (match mapGet q.reservations appID with
         | some c => mapPut q.reservations appID (c + 1)
         | none => mapPut q.reservations appID 1) q.children)

/-- UnReserve on the queue (`Queue.UnReserve`).  Modelled from the spec
(section 3, queue attributes). -/
def queueUnReserve (root : Queue) (queueName : String) (appID : String) (num : Int) : Queue :=
  match splitDot (strToLower queueName) with
  | [] => root
  | p0 :: rest =>
    if p0 ≠ RootQueue then root
    else updateAt root rest (fun q =>
      .mk q.name q.isLeaf q.maxResource q.allocatedResource q.submitACL q.adminACL
        q.state q.applications
        (match mapGet q.reservations appID with
         | some c => if c ≤ num then mapDel q.reservations appID
                     else mapPut q.reservations appID (c - num)
         | none => q.reservations) q.children)

/-- Reserve (`PartitionContext.reserve`, partition.go lines 779-805):
no-op when the application is already reserved on the node or the
application-level reserve fails; otherwise record the reservation on
application, node and queue, and increment the partition counter for the
application (a missing key starts at 0, so the new count is 1). -/
def reserve (pc : PartitionContext) (app : Application) (node : Node) :
    PartitionContext :=
  if app.isReservedOnNode node.nodeID then pc
  else
    match app.reserveOn node with
    | .error _ => pc
    | .ok an =>
      { pc with
        root := queueReserve pc.root app.queueName app.applicationID,
        reservedApps :=
          (match mapGet pc.reservedApps app.applicationID with
           | some c => mapPut pc.reservedApps app.applicationID (c + 1)
           | none => mapPut pc.reservedApps app.applicationID 1),
        applications := mapPut pc.applications app.applicationID an.1,
        nodes := mapPut pc.nodes node.nodeID an.2 }

/-- UnReserve (`PartitionContext.unReserve`, partition.go lines 809-835):
no-op when the partition holds no reservation count for the application
(a Go map read of a missing key is 0); otherwise remove the reservation
from application and node, then credit the removed count back through
`unReserveCount`. -/
def unReserve (pc : PartitionContext) (app : Application) (node : Node) :
    PartitionContext :=
  if (mapGet pc.reservedApps app.applicationID).getD 0 = 0 then pc
  else
    let nan := app.unReserveOn node
    { pc with
      root := queueUnReserve pc.root app.queueName app.applicationID nan.1,
      reservedApps := unReserveCount pc.reservedApps app.applicationID nan.1,
      applications := mapPut pc.applications app.applicationID nan.2.1,
      nodes := mapPut pc.nodes node.nodeID nan.2.2 }

end scheduler

namespace scheduler

theorem lookup_mem_isSome {α : Type} :
    ∀ (m : List (String × α)) (a : String) (b : α), (a, b) ∈ m →
      (m.lookup a).isSome = true := by
  intro m a b h
  induction m with
  | nil => cases h
  | cons kv rest ih =>
    rcases List.mem_cons.mp h with rfl | hmem
    · simp [List.lookup]
    · by_cases hx : (a == kv.1) = true
      · simp [List.lookup, hx]
      · simp only [List.lookup, Bool.not_eq_true] at *
        rw [hx]
        exact ih hmem

theorem lookup_filter_ne_self {α : Type} (m : List (String × α)) (k : String) :
    (m.filter (fun kv => kv.1 ≠ k)).lookup k = none := by
  induction m with
  | nil => rfl
  | cons kv rest ih =>
    rw [List.filter_cons]
    by_cases h : kv.1 = k
    · have hd : (decide (kv.1 ≠ k)) = false := by simp [h]
      rw [hd]
      simpa using ih
    · have hd : (decide (kv.1 ≠ k)) = true := by simp [h]
      rw [hd]
      have hb : (k == kv.1) = false := by
        simp only [beq_eq_false_iff_ne, ne_eq]
        exact fun e => h e.symm
      simp only [if_pos rfl, List.lookup, hb]
      exact ih

theorem lookup_filter_ne_other {α : Type} (m : List (String × α)) (k k' : String)
    (hne : k' ≠ k) :
    (m.filter (fun kv => kv.1 ≠ k)).lookup k' = m.lookup k' := by
  induction m with
  | nil => rfl
  | cons kv rest ih =>
    rw [List.filter_cons]
    by_cases h : kv.1 = k
    · have hd : (decide (kv.1 ≠ k)) = false := by simp [h]
      rw [hd]
      have hb : (k' == kv.1) = false := by
        simp only [beq_eq_false_iff_ne, ne_eq, h]
        exact hne
      simp only [Bool.false_eq_true, if_false, List.lookup, hb]
      exact ih
    · have hd : (decide (kv.1 ≠ k)) = true := by simp [h]
      rw [hd]
      by_cases h2 : (k' == kv.1) = true
      · simp only [if_pos rfl, List.lookup, h2]
      · rw [Bool.not_eq_true] at h2
        simp only [if_pos rfl, List.lookup, h2]
        exact ih

theorem mapGet_put_self {α : Type} (m : List (String × α)) (k : String) (v : α) :
    mapGet (mapPut m k v) k = some v := by
  unfold mapGet mapPut
  rw [List.lookup_append', lookup_filter_ne_self]
  simp [List.lookup]

theorem mapGet_put_other {α : Type} (m : List (String × α)) (k k' : String) (v : α)
    (hne : k' ≠ k) :
    mapGet (mapPut m k v) k' = mapGet m k' := by
  unfold mapGet mapPut
  rw [List.lookup_append', lookup_filter_ne_other m k k' hne]
  cases hl : m.lookup k' with
  | some w => simp [Option.orElse]
  | none =>
    have hb : (k' == k) = false := by simp [hne]
    simp [Option.orElse, List.lookup, hb]

theorem mapGet_del_self {α : Type} (m : List (String × α)) (k : String) :
    mapGet (mapDel m k) k = none := by
  unfold mapGet mapDel
  exact lookup_filter_ne_self m k

theorem mapGet_del_other {α : Type} (m : List (String × α)) (k k' : String)
    (hne : k' ≠ k) :
    mapGet (mapDel m k) k' = mapGet m k' := by
  unfold mapGet mapDel
  exact lookup_filter_ne_other m k k' hne

theorem mapDel_put_absent {α : Type} (m : List (String × α)) (k : String) (v : α)
    (habs : mapGet m k = none) :
    mapDel (mapPut m k v) k = m := by
  unfold mapDel mapPut
  have hself : m.filter (fun kv => kv.1 ≠ k) = m := by
    apply List.filter_eq_self.mpr
    intro kv hkv
    simp only [ne_eq, decide_eq_true_eq]
    intro hk
    have hs := lookup_mem_isSome m kv.1 kv.2 (by exact hkv)
    rw [hk] at hs
    unfold mapGet at habs
    rw [habs] at hs
    cases hs
  rw [List.filter_append, hself]
  have hone : ([(k, v)].filter (fun kv => kv.1 ≠ k)) = [] := by simp
  rw [hone, List.append_nil, hself]

end scheduler

/-- C9: queue lookup by full path lower-cases the name before walking, so
two names with the same lower-casing give the same result; and any name
whose first dot-separated segment is not `root` after lower-casing
resolves to nil. -/
theorem c9_getQueue_spec (root : scheduler.Queue) :
    (∀ n1 n2 : String, strToLower n1 = strToLower n2 →
      scheduler.getQueue root n1 = scheduler.getQueue root n2) ∧
    (∀ nm : String, (splitDot (strToLower nm)).head? ≠ some scheduler.RootQueue →
      scheduler.getQueue root nm = none) := by
  constructor
  · intro n1 n2 h
    unfold scheduler.getQueue
    rw [h]
  · intro nm h
    unfold scheduler.getQueue
    rcases hs : splitDot (strToLower nm) with _ | ⟨p0, rest⟩
    · rfl
    · rw [hs] at h
      simp only [List.head?_cons, ne_eq, Option.some.injEq] at h
      simp [h]

/-- Two-queue tree (root with one leaf child `default`) used as a concrete
fixture. -/
def c9tree : scheduler.Queue :=
  .mk "root" false none [] ⟨true, [], []⟩ ⟨false, [], []⟩ cache.ObjectState.Active [] []
    [.mk "default" true none [] ⟨false, [], []⟩ ⟨false, [], []⟩
      cache.ObjectState.Active [] [] []]

/-- Witness for C9: mixed-case lookup of `Root.Default` equals the
lower-case lookup, and a name not rooted at `root` resolves to nil. -/
theorem c9_witness :
    scheduler.getQueue c9tree "Root.Default" = scheduler.getQueue c9tree "root.default" ∧
    scheduler.getQueue c9tree "foo.default" = none := by
  constructor
  · exact (c9_getQueue_spec c9tree).1 "Root.Default" "root.default" (by decide)
  · exact (c9_getQueue_spec c9tree).2 "foo.default" (by decide)

/-- Application fixture for C10. -/
def c10app : scheduler.Application :=
  { applicationID := "app-1", queueName := "root", user := ⟨"u", []⟩,
    allocations := [], reservations := [] }

/-- Node fixture for C10. -/
def c10node : scheduler.Node :=
  { nodeID := "node-1", capacity := [], occupied := [], available := [],
    allocations := [], schedulable := true, reservations := [] }

/-- Partition fixture for C10. -/
def c10pc : scheduler.PartitionContext :=
  { name := "test", state := cache.ObjectState.Active, root := c9tree,
    applications := [("app-1", c10app)], reservedApps := [],
    nodes := [("node-1", c10node)], allocations := [],
    totalPartitionResource := none, placement := none }

/-- C10 counterexample: the claim quantifies over any sequence of reserve,
unReserve and unReserveCount operations, but after a reserve (count 1) a
direct `unReserveCount(appID, 2)` subtracts past zero and leaves the key
present with count -1, so the strict-positivity invariant is violated. -/
theorem c10_counterexample :
    scheduler.mapGet (scheduler.unReserveCount
      (scheduler.reserve c10pc c10app c10node).reservedApps "app-1" 2) "app-1" =
      some (-1) := by
  decide

/-- Positivity of every stored reservation count. -/
def PosInv (m : List (String × Int)) : Prop :=
  ∀ k v, scheduler.mapGet m k = some v → 0 < v

/-- C10 amended: `reserve` and `unReserve` preserve the invariant that
every application present in reservedApps has a strictly positive count
(reserve increments, unReserve is guarded); `unReserveCount` deletes the
entry when the released count equals the stored count and otherwise
subtracts, which preserves the invariant only when the released count is
at most the stored count — a larger release leaves a non-positive
count. -/
theorem c10_reservedApps_invariant (pc : scheduler.PartitionContext)
    (app : scheduler.Application) (node : scheduler.Node)
    (m : List (String × Int)) (appID : String) (asks : Int) :
    (PosInv pc.reservedApps → PosInv (scheduler.reserve pc app node).reservedApps) ∧
    (PosInv pc.reservedApps → PosInv (scheduler.unReserve pc app node).reservedApps) ∧
    (PosInv m → (∀ v, scheduler.mapGet m appID = some v → asks ≤ v) →
      PosInv (scheduler.unReserveCount m appID asks)) := by
  have hcount : ∀ (m : List (String × Int)) (appID : String) (asks : Int),
      PosInv m → (∀ v, scheduler.mapGet m appID = some v → asks ≤ v) →
      PosInv (scheduler.unReserveCount m appID asks) := by
    intro m appID asks hinv hbound
    unfold scheduler.unReserveCount
    cases hg : scheduler.mapGet m appID with
    | none => exact hinv
    | some num =>
      dsimp only
      by_cases heq : num = asks
      · rw [if_pos heq]
        intro k v hk
        by_cases hkk : k = appID
        · rw [hkk, scheduler.mapGet_del_self] at hk
          cases hk
        · rw [scheduler.mapGet_del_other m appID k hkk] at hk
          exact hinv k v hk
      · rw [if_neg heq]
        intro k v hk
        by_cases hkk : k = appID
        · rw [hkk, scheduler.mapGet_put_self] at hk
          have hb := hbound num hg
          have := hinv appID num hg
          cases hk
          omega
        · rw [scheduler.mapGet_put_other m appID k _ hkk] at hk
          exact hinv k v hk
  refine ⟨?_, ?_, hcount m appID asks⟩
  · intro hinv
    unfold scheduler.reserve
    by_cases hres : app.isReservedOnNode node.nodeID = true
    · simp only [hres, if_pos rfl]
      exact hinv
    · rw [Bool.not_eq_true] at hres
      simp only [hres, Bool.false_eq_true, if_false]
      cases hro : app.reserveOn node with
      | error e => exact hinv
      | ok an =>
        cases hg : scheduler.mapGet pc.reservedApps app.applicationID with
        | none =>
          simp only [hg]
          intro k v hk
          by_cases hkk : k = app.applicationID
          · rw [hkk, scheduler.mapGet_put_self] at hk
            cases hk
            omega
          · rw [scheduler.mapGet_put_other _ _ _ _ hkk] at hk
            exact hinv k v hk
        | some c =>
          simp only [hg]
          intro k v hk
          by_cases hkk : k = app.applicationID
          · rw [hkk, scheduler.mapGet_put_self] at hk
            have := hinv app.applicationID c hg
            cases hk
            omega
          · rw [scheduler.mapGet_put_other _ _ _ _ hkk] at hk
            exact hinv k v hk
  · intro hinv
    unfold scheduler.unReserve
    by_cases hz : (scheduler.mapGet pc.reservedApps app.applicationID).getD 0 = 0
    · simp only [hz, if_pos rfl]
      exact hinv
    · simp only [if_neg hz]
      apply hcount pc.reservedApps app.applicationID (app.unReserveOn node).1 hinv
      intro v hv
      have hpos := hinv app.applicationID v hv
      have hnum : (app.unReserveOn node).1 = 1 ∨ (app.unReserveOn node).1 = 0 := by
        unfold scheduler.Application.unReserveOn
        by_cases hc : app.reservations.contains node.nodeID = true
        · left
          rw [if_pos hc]
        · right
          rw [if_neg hc]
      rcases hnum with hn | hn <;> rw [hn] <;> omega

/-- Witness for the amended C10: from an empty reservation map, a reserve
produces count 1 and a matching unReserveCount removes the entry; the
invariant holds at every step. -/
theorem c10_witness :
    PosInv (scheduler.reserve c10pc c10app c10node).reservedApps ∧
    PosInv (scheduler.unReserveCount
      (scheduler.reserve c10pc c10app c10node).reservedApps "app-1" 1) := by
  have hbase : PosInv c10pc.reservedApps := by
    intro k v hk
    simp [c10pc, scheduler.mapGet, List.lookup] at hk
  have h1 := (c10_reservedApps_invariant c10pc c10app c10node
    (scheduler.reserve c10pc c10app c10node).reservedApps "app-1" 1).1 hbase
  refine ⟨h1, ?_⟩
  apply (c10_reservedApps_invariant c10pc c10app c10node
    (scheduler.reserve c10pc c10app c10node).reservedApps "app-1" 1).2.2 h1
  intro v hv
  have hone : scheduler.mapGet
      (scheduler.reserve c10pc c10app c10node).reservedApps "app-1" = some 1 := by decide
  rw [hone] at hv
  have hv1 : (1 : Int) = v := Option.some.inj hv
  omega

namespace scheduler

/-- Capacity of a node is untouched by adding an allocation. -/
theorem Node.capacity_addAllocation (n : Node) (a : Allocation) :
    (n.addAllocation a).capacity = n.capacity := by
  unfold Node.addAllocation
  by_cases h : n.allocations.any (fun x => x.uuid = a.uuid) = true
  · rw [if_pos h]
  · rw [if_neg h]

theorem incAllocatedTree_max (q : Queue) (path : List String) (alloc : Resource)
    (nr : Bool) (q' : Queue) (h : incAllocatedTree q path alloc nr = .ok q') :
    q'.maxResource = q.maxResource := by
  unfold incAllocatedTree at h
  by_cases hg : (!nr && q.overMax (Resource.add q.allocatedResource alloc)) = true
  · rw [if_pos hg] at h
    cases h
  · rw [if_neg hg] at h
    cases path with
    | nil =>
      dsimp only at h
      cases h
      rfl
    | cons p rest =>
      dsimp only at h
      cases hc : q.getChildQueue p with
      | none => rw [hc] at h; cases h
      | some c =>
        rw [hc] at h
        dsimp only at h
        cases hrec : incAllocatedTree c rest alloc nr with
        | error e => rw [hrec] at h; cases h
        | ok c' =>
          rw [hrec] at h
          dsimp only at h
          cases h
          rfl

theorem incAllocatedByName_max (root : Queue) (nm : String) (alloc : Resource)
    (nr : Bool) (root' : Queue) (h : incAllocatedByName root nm alloc nr = .ok root') :
    root'.maxResource = root.maxResource := by
  unfold incAllocatedByName at h
  cases hs : splitDot (strToLower nm) with
  | nil => rw [hs] at h; cases h
  | cons p0 rest =>
    rw [hs] at h
    dsimp only at h
    by_cases hr : p0 ≠ RootQueue
    · rw [if_pos hr] at h; cases h
    · rw [if_neg hr] at h
      exact incAllocatedTree_max root rest alloc nr root' h

/-- Frame of `addAllocation`: the partition total, the root max and the
capacities of the stored nodes are untouched, whether it succeeds or
fails. -/
theorem addAllocation_frame (pc : PartitionContext) (a : Allocation) :
    (addAllocation pc a).2.totalPartitionResource = pc.totalPartitionResource ∧
    (addAllocation pc a).2.root.maxResource = pc.root.maxResource ∧
    ∀ k, Option.map Node.capacity (mapGet (addAllocation pc a).2.nodes k) =
      Option.map Node.capacity (mapGet pc.nodes k) := by
  unfold addAllocation
  by_cases h1 : pc.isStopped = true
  · rw [if_pos h1]
    exact ⟨rfl, rfl, fun k => rfl⟩
  · rw [if_neg h1]
    by_cases h2 : a.uuid = ""
    · rw [if_pos h2]
      exact ⟨rfl, rfl, fun k => rfl⟩
    · rw [if_neg h2]
      cases hn : mapGet pc.nodes a.nodeID with
      | none => exact ⟨rfl, rfl, fun k => rfl⟩
      | some node =>
        dsimp only
        cases ha : mapGet pc.applications a.applicationID with
        | none => exact ⟨rfl, rfl, fun k => rfl⟩
        | some app =>
          dsimp only
          by_cases h3 : (!node.schedulable) = true
          · rw [if_pos h3]
            exact ⟨rfl, rfl, fun k => rfl⟩
          · rw [if_neg h3]
            cases hq : incAllocatedByName pc.root app.queueName a.allocatedResource true with
            | error e => exact ⟨rfl, rfl, fun k => rfl⟩
            | ok root1 =>
              dsimp only
              refine ⟨rfl, incAllocatedByName_max _ _ _ _ _ hq, fun k => ?_⟩
              by_cases hk : k = a.nodeID
              · subst hk
                rw [mapGet_put_self, hn]
                simp [Node.capacity_addAllocation]
              · rw [mapGet_put_other _ _ _ _ hk]

/-- Frame of the replay loop, by induction from `addAllocation_frame`. -/
theorem replay_frame (l : List Allocation) :
    ∀ pc : PartitionContext,
    (replayAllocations pc l).2.totalPartitionResource = pc.totalPartitionResource ∧
    (replayAllocations pc l).2.root.maxResource = pc.root.maxResource ∧
    ∀ k, Option.map Node.capacity (mapGet (replayAllocations pc l).2.nodes k) =
      Option.map Node.capacity (mapGet pc.nodes k) := by
  induction l with
  | nil => intro pc; exact ⟨rfl, rfl, fun k => rfl⟩
  | cons a rest ih =>
    intro pc
    have hstep := addAllocation_frame pc a
    rcases hadd : addAllocation pc a with ⟨oe, pc1⟩
    rw [hadd] at hstep
    cases oe with
    | some e =>
      unfold replayAllocations
      rw [hadd]
      exact hstep
    | none =>
      have hrest := ih pc1
      unfold replayAllocations
      rw [hadd]
      dsimp only
      exact ⟨hrest.1.trans hstep.1, hrest.2.1.trans hstep.2.1,
        fun k => (hrest.2.2 k).trans (hstep.2.2 k)⟩

/-- Frame of the node-removal allocation loop: it never touches the nodes
map, the reservation map or the partition total. -/
theorem removeLoop_frame (l : List Allocation) :
    ∀ pc : PartitionContext,
    (removeNodeAllocationsLoop pc l).2.nodes = pc.nodes ∧
    (removeNodeAllocationsLoop pc l).2.totalPartitionResource = pc.totalPartitionResource ∧
    (removeNodeAllocationsLoop pc l).2.reservedApps = pc.reservedApps := by
  induction l with
  | nil => intro pc; exact ⟨rfl, rfl, rfl⟩
  | cons alloc rest ih =>
    intro pc
    unfold removeNodeAllocationsLoop
    cases ha : mapGet pc.applications alloc.applicationID with
    | none => exact ih pc
    | some app =>
      dsimp only
      rcases hra : app.removeAllocation alloc.uuid with ⟨oa, app1⟩
      cases oa with
      | none => exact ih pc
      | some a0 =>
        dsimp only
        cases hdec : decAllocatedByName pc.root app.queueName alloc.allocatedResource with
        | error e => exact ih _
        | ok root1 => exact ih _

end scheduler

namespace scheduler

/-- The new partition total computed by `AddNode`: the first node's clone
of its capacity, later nodes added on (`AddTo`). -/
def newTotal (pc : PartitionContext) (n : Node) : Resource :=
  match pc.totalPartitionResource with
  | none => n.capacity.clone
  | some t => Resource.add t n.capacity

/-- Read a dimension of the partition total; Go's nil resource reads 0 on
every dimension. -/
def totalGet (t : Option Resource) (k : String) : Int :=
  match t with
  | none => 0
  | some r => r.get k

/-- The intermediate partition state of `AddNode` after the totals are
updated and the node inserted, before the allocation replay. -/
def addNodePC1 (pc : PartitionContext) (n : Node) : PartitionContext :=
  { pc with
    totalPartitionResource := some (newTotal pc n),
    root := setRootMax pc.root (newTotal pc n),
    nodes := mapPut pc.nodes n.nodeID n }

theorem AddNode_past_guards (pc : PartitionContext) (n : Node)
    (allocs : List Allocation)
    (hd : pc.isDraining = false) (hs : pc.isStopped = false)
    (habs : (mapGet pc.nodes n.nodeID).isSome = false) :
    AddNode pc (some n) allocs =
      (match replayAllocations (addNodePC1 pc n) allocs with
       | (some e, pc2) => (some e, (removeNodeInternal pc2 n.nodeID).2)
       | (none, pc2) => (none, pc2)) := by
  unfold AddNode
  dsimp only
  rw [if_neg (by rw [hd, hs]; simp)]
  rw [if_neg (by rw [habs]; simp)]
  rfl

end scheduler

/-- C3: AddNode fails on a Draining or Stopped partition and on a
duplicate node ID, leaving the partition untouched; on success the node
capacity has been added to the partition total and the root max set to the
new total, with the node stored in the map; and when the replay of an
existing allocation fails, the node has been rolled back out: it is absent
from the nodes map and the partition total reads as before the call on
every dimension. -/
theorem c3_addNode_spec (pc : scheduler.PartitionContext) (n : scheduler.Node)
    (allocs : List scheduler.Allocation) :
    ((pc.isDraining = true ∨ pc.isStopped = true) →
      scheduler.AddNode pc (some n) allocs =
        (some "partition is stopped cannot add a new node", pc)) ∧
    (pc.isDraining = false → pc.isStopped = false →
      (scheduler.mapGet pc.nodes n.nodeID).isSome = true →
      scheduler.AddNode pc (some n) allocs =
        (some "partition has an existing node, node name must be unique", pc)) ∧
    (∀ pc', scheduler.AddNode pc (some n) allocs = (none, pc') →
      pc'.totalPartitionResource = some (scheduler.newTotal pc n) ∧
      pc'.root.maxResource = some (scheduler.newTotal pc n) ∧
      (scheduler.mapGet pc'.nodes n.nodeID).isSome = true) ∧
    (∀ e pc', pc.isDraining = false → pc.isStopped = false →
      scheduler.mapGet pc.nodes n.nodeID = none →
      scheduler.AddNode pc (some n) allocs = (some e, pc') →
      scheduler.mapGet pc'.nodes n.nodeID = none ∧
      ∀ k, scheduler.totalGet pc'.totalPartitionResource k =
        scheduler.totalGet pc.totalPartitionResource k) := by
  refine ⟨?_, ?_, ?_, ?_⟩
  · intro h
    unfold scheduler.AddNode
    dsimp only
    rw [if_pos (by rcases h with h | h <;> rw [h] <;> simp)]
  · intro hd hs hdup
    unfold scheduler.AddNode
    dsimp only
    rw [if_neg (by rw [hd, hs]; simp), if_pos hdup]
  · intro pc' hsucc
    by_cases hg1 : (pc.isDraining || pc.isStopped) = true
    · unfold scheduler.AddNode at hsucc
      dsimp only at hsucc
      rw [if_pos hg1] at hsucc
      cases hsucc
    · have hd : pc.isDraining = false := by
        cases hx : pc.isDraining
        · rfl
        · rw [hx] at hg1; simp at hg1
      have hs : pc.isStopped = false := by
        cases hx : pc.isStopped
        · rfl
        · rw [hx] at hg1; simp at hg1
      by_cases hg2 : (scheduler.mapGet pc.nodes n.nodeID).isSome = true
      · unfold scheduler.AddNode at hsucc
        dsimp only at hsucc
        rw [if_neg hg1, if_pos hg2] at hsucc
        cases hsucc
      · rw [scheduler.AddNode_past_guards pc n allocs hd hs
          (by rw [Bool.not_eq_true] at hg2; exact hg2)] at hsucc
        have hframe := scheduler.replay_frame allocs (scheduler.addNodePC1 pc n)
        rcases hrep : scheduler.replayAllocations (scheduler.addNodePC1 pc n) allocs
          with ⟨oe, pc2⟩
        rw [hrep] at hsucc hframe
        cases oe with
        | some e => cases hsucc
        | none =>
          dsimp only at hsucc
          cases hsucc
          refine ⟨hframe.1, ?_, ?_⟩
          · exact hframe.2.1
          · have hcap := hframe.2.2 n.nodeID
            have hput : scheduler.mapGet (scheduler.addNodePC1 pc n).nodes n.nodeID =
                some n := scheduler.mapGet_put_self pc.nodes n.nodeID n
            rw [hput] at hcap
            dsimp only at hcap
            cases hget : scheduler.mapGet pc'.nodes n.nodeID with
            | none => rw [hget] at hcap; cases hcap
            | some n2 => rfl
  · intro e pc' hd hs habs hfail
    rw [scheduler.AddNode_past_guards pc n allocs hd hs (by rw [habs]; rfl)] at hfail
    have hframe := scheduler.replay_frame allocs (scheduler.addNodePC1 pc n)
    rcases hrep : scheduler.replayAllocations (scheduler.addNodePC1 pc n) allocs
      with ⟨oe, pc2⟩
    rw [hrep] at hfail hframe
    cases oe with
    | none => cases hfail
    | some e2 =>
      dsimp only at hfail
      injection hfail with he1 he2
      subst he2
      have hcap := hframe.2.2 n.nodeID
      have hput : scheduler.mapGet (scheduler.addNodePC1 pc n).nodes n.nodeID =
          some n := scheduler.mapGet_put_self pc.nodes n.nodeID n
      rw [hput] at hcap
      cases hget : scheduler.mapGet pc2.nodes n.nodeID with
      | none => rw [hget] at hcap; cases hcap
      | some n2 =>
        rw [hget] at hcap
        have hc2 : n2.capacity = n.capacity := by
          simpa using hcap
        have htot2 : pc2.totalPartitionResource = some (scheduler.newTotal pc n) :=
          hframe.1.trans rfl
        unfold scheduler.removeNodeInternal
        rw [hget]
        dsimp only
        have hloop := scheduler.removeLoop_frame n2.allocations
          { pc2 with nodes := scheduler.mapDel pc2.nodes n.nodeID }
        have hrpnodes : (scheduler.removeNodeAllocationsLoop
            { pc2 with nodes := scheduler.mapDel pc2.nodes n.nodeID }
            n2.allocations).2.nodes = scheduler.mapDel pc2.nodes n.nodeID := hloop.1
        have hrptot : (scheduler.removeNodeAllocationsLoop
            { pc2 with nodes := scheduler.mapDel pc2.nodes n.nodeID }
            n2.allocations).2.totalPartitionResource =
            some (scheduler.newTotal pc n) := hloop.2.1.trans htot2
        refine ⟨?_, ?_⟩
        · rw [hrpnodes]
          exact scheduler.mapGet_del_self pc2.nodes n.nodeID
        · intro k
          rw [hrptot]
          show (Resource.sub ((some (scheduler.newTotal pc n)).getD Resource.nil)
            n2.capacity).get k = scheduler.totalGet pc.totalPartitionResource k
          rw [Option.getD_some, hc2, Resource.get_sub]
          unfold scheduler.newTotal scheduler.totalGet
          cases htotal : pc.totalPartitionResource with
          | none =>
            dsimp only
            show (Resource.get n.capacity k) - n.capacity.get k = 0
            omega
          | some t =>
            dsimp only
            rw [Resource.get_add]
            omega

namespace scheduler

/-- Witness for C3: adding a node whose ID is already present in the
partition fails with the duplicate-node error and leaves the partition
unchanged. -/
theorem c3_addNode_witness :
    AddNode c10pc (some c10node) [] =
      (some "partition has an existing node, node name must be unique", c10pc) :=
  (c3_addNode_spec c10pc c10node []).2.1 (by decide) (by decide) (by decide)

/-- The application stored for `id` holds an allocation with UUID `u`. -/
def hasAllocUuid (pc : PartitionContext) (id u : String) : Prop :=
  ∃ app, mapGet pc.applications id = some app ∧
    u ∈ app.allocations.map Allocation.uuid

theorem any_uuid_eq (l : List Allocation) (u : String) :
    (l.any (fun x => x.uuid = u)) = true ↔ u ∈ l.map Allocation.uuid := by
  simp only [List.any_eq_true, decide_eq_true_eq, List.mem_map]

theorem mem_uuid_filter (l : List Allocation) (u v : String) (hne : u ≠ v)
    (h : u ∈ l.map Allocation.uuid) :
    u ∈ (l.filter (fun x => x.uuid ≠ v)).map Allocation.uuid := by
  rcases List.mem_map.mp h with ⟨x, hx, rfl⟩
  exact List.mem_map.mpr ⟨x, List.mem_filter.mpr ⟨hx, by simpa using hne⟩, rfl⟩

/-- Outcome shape of `addAllocation`: on error the partition is returned
unchanged; on success the node and application maps have been updated at
the allocation's node and application and the total is untouched. -/
theorem addAllocation_shape (pc : PartitionContext) (a : Allocation) :
    ((addAllocation pc a).1.isSome = true ∧ (addAllocation pc a).2 = pc) ∨
    ((addAllocation pc a).1 = none ∧
      ∃ nd app0, mapGet pc.nodes a.nodeID = some nd ∧
        mapGet pc.applications a.applicationID = some app0 ∧
        (addAllocation pc a).2.nodes = mapPut pc.nodes a.nodeID (nd.addAllocation a) ∧
        (addAllocation pc a).2.applications =
          mapPut pc.applications a.applicationID (app0.addAllocation a) ∧
        (addAllocation pc a).2.totalPartitionResource = pc.totalPartitionResource) := by
  unfold addAllocation
  by_cases h1 : pc.isStopped = true
  · rw [if_pos h1]
    exact Or.inl ⟨rfl, rfl⟩
  · rw [if_neg h1]
    by_cases h2 : a.uuid = ""
    · rw [if_pos h2]
      exact Or.inl ⟨rfl, rfl⟩
    · rw [if_neg h2]
      cases hn : mapGet pc.nodes a.nodeID with
      | none => exact Or.inl ⟨rfl, rfl⟩
      | some node =>
        dsimp only
        cases ha : mapGet pc.applications a.applicationID with
        | none => exact Or.inl ⟨rfl, rfl⟩
        | some app =>
          dsimp only
          by_cases h3 : (!node.schedulable) = true
          · rw [if_pos h3]
            exact Or.inl ⟨rfl, rfl⟩
          · rw [if_neg h3]
            cases hq : incAllocatedByName pc.root app.queueName a.allocatedResource true with
            | error e => exact Or.inl ⟨rfl, rfl⟩
            | ok root1 =>
              dsimp only
              exact Or.inr ⟨rfl, node, app, rfl, rfl, rfl, rfl, rfl⟩

theorem addAllocation_preserves_mem (pc : PartitionContext) (a : Allocation)
    (id u : String) (hu : u ≠ a.uuid) (hm : hasAllocUuid pc id u) :
    hasAllocUuid (addAllocation pc a).2 id u := by
  rcases addAllocation_shape pc a with ⟨_, hunch⟩ | ⟨_, nd, app0, hn, ha, _, happs, _⟩
  · rw [hunch]
    exact hm
  · rcases hm with ⟨app, hget, humem⟩
    by_cases hid : id = a.applicationID
    · subst hid
      have happ0 : app0 = app := Option.some.inj (ha.symm.trans hget)
      subst happ0
      refine ⟨Application.addAllocation app0 a, ?_, ?_⟩
      · rw [happs]
        exact mapGet_put_self _ _ _
      · unfold Application.addAllocation
        dsimp only
        rw [List.map_append]
        exact List.mem_append.mpr (Or.inl (mem_uuid_filter _ _ _ hu humem))
    · refine ⟨app, ?_, humem⟩
      rw [happs, mapGet_put_other _ _ _ _ hid]
      exact hget

theorem replay_preserves_mem (l : List Allocation) :
    ∀ (pc : PartitionContext) (id u : String), (∀ b ∈ l, u ≠ b.uuid) →
      hasAllocUuid pc id u → hasAllocUuid (replayAllocations pc l).2 id u := by
  induction l with
  | nil => intro pc id u _ hm; exact hm
  | cons b rest ih =>
    intro pc id u hne hm
    have hstep := addAllocation_preserves_mem pc b id u (hne b (by simp)) hm
    unfold replayAllocations
    rcases hab : addAllocation pc b with ⟨oe, pc1⟩
    rw [hab] at hstep
    cases oe with
    | some e => exact hstep
    | none =>
      dsimp only
      exact ih pc1 id u (fun c hc => hne c (by simp [hc])) hstep

end scheduler

namespace scheduler

/-- Successful replay of node-reported allocations that all target node
`nid`: the stored node accumulates exactly those allocations in order
(its capacity untouched), and every replayed allocation is found on its
application afterwards. -/
theorem replay_ok_node_allocs (allocs : List Allocation) :
    ∀ (pcA : PartitionContext) (nd : Node) (nid : String),
    mapGet pcA.nodes nid = some nd →
    (∀ a ∈ allocs, a.nodeID = nid) →
    (allocs.map Allocation.uuid).Nodup →
    (∀ a ∈ allocs, a.uuid ∉ nd.allocations.map Allocation.uuid) →
    (replayAllocations pcA allocs).1 = none →
    ∃ nd', mapGet (replayAllocations pcA allocs).2.nodes nid = some nd' ∧
      nd'.allocations = nd.allocations ++ allocs ∧ nd'.capacity = nd.capacity ∧
      (∀ a ∈ allocs, hasAllocUuid (replayAllocations pcA allocs).2 a.applicationID a.uuid) := by
  induction allocs with
  | nil =>
    intro pcA nd nid hnd _ _ _ _
    exact ⟨nd, hnd, by simp, rfl, by simp⟩
  | cons a rest ih =>
    intro pcA nd nid hnd hnids hnodup hdisj hok
    rcases haa : addAllocation pcA a with ⟨oe, pcA1⟩
    have hrepeq : replayAllocations pcA (a :: rest) =
        (match addAllocation pcA a with
         | (some e, pc1) => (some e, pc1)
         | (none, pc1) => replayAllocations pc1 rest) := rfl
    cases oe with
    | some e =>
      rw [hrepeq, haa] at hok
      cases hok
    | none =>
      have hshape := addAllocation_shape pcA a
      rw [haa] at hshape
      rcases hshape with ⟨habs, _⟩ | ⟨_, nd0, app0, hn0, ha0, hnodes1, happs1, _⟩
      · cases habs
      · have hanid : a.nodeID = nid := hnids a (by simp)
        rw [hanid, hnd] at hn0
        have hnd0 : nd = nd0 := Option.some.inj hn0
        subst hnd0
        have hguard : (nd.allocations.any (fun x => x.uuid = a.uuid)) = false := by
          cases hany : nd.allocations.any (fun x => x.uuid = a.uuid)
          · rfl
          · exact absurd ((any_uuid_eq _ _).mp hany) (hdisj a (by simp))
        have hnd1 : Node.addAllocation nd a =
            { nd with
              allocations := nd.allocations ++ [a],
              available := Resource.sub nd.available a.allocatedResource } := by
          unfold Node.addAllocation
          rw [hguard]
          rfl
        have hget1 : mapGet pcA1.nodes nid = some (Node.addAllocation nd a) := by
          rw [hnodes1, hanid]
          exact mapGet_put_self _ _ _
        have hmem1 : hasAllocUuid pcA1 a.applicationID a.uuid := by
          refine ⟨Application.addAllocation app0 a, ?_, ?_⟩
          · rw [happs1]
            exact mapGet_put_self _ _ _
          · unfold Application.addAllocation
            dsimp only
            rw [List.map_append]
            exact List.mem_append.mpr (Or.inr (by simp))
        have hreplay_rest : replayAllocations pcA (a :: rest) = replayAllocations pcA1 rest := by
          rw [hrepeq, haa]
        rw [hreplay_rest] at hok ⊢
        have hrest := ih pcA1 (Node.addAllocation nd a) nid hget1
          (fun b hb => hnids b (by simp [hb]))
          (by
            rw [List.map_cons, List.nodup_cons] at hnodup
            exact hnodup.2)
          (by
            intro b hb
            rw [hnd1]
            dsimp only
            rw [List.map_append]
            intro hmem
            rcases List.mem_append.mp hmem with hold | hnewone
            · exact hdisj b (by simp [hb]) hold
            · rw [List.map_cons, List.nodup_cons] at hnodup
              have : b.uuid = a.uuid := by simpa using hnewone
              exact hnodup.1 (this ▸ List.mem_map.mpr ⟨b, hb, rfl⟩))
          hok
        rcases hrest with ⟨nd', hget', hallocs', hcap', hmem'⟩
        refine ⟨nd', hget', ?_, ?_, ?_⟩
        · rw [hallocs', hnd1]
          dsimp only
          rw [List.append_assoc]
          rfl
        · rw [hcap', hnd1]
        · intro b hb
          rcases List.mem_cons.mp hb with rfl | hbr
          · apply replay_preserves_mem rest pcA1 b.applicationID b.uuid
            · intro c hc
              rw [List.map_cons, List.nodup_cons] at hnodup
              intro hequ
              exact hnodup.1 (hequ ▸ List.mem_map.mpr ⟨c, hc, rfl⟩)
            · exact hmem1
          · exact hmem' b hbr

end scheduler

namespace scheduler

theorem find?_uuid_isSome (l : List Allocation) (u : String)
    (h : u ∈ l.map Allocation.uuid) :
    (l.find? (fun x => x.uuid = u)).isSome = true := by
  rcases List.mem_map.mp h with ⟨x, hx, rfl⟩
  apply List.find?_isSome.mpr
  exact ⟨x, hx, by simp⟩

/-- Variant of `hasAllocUuid` phrased on the applications map alone. -/
def hasAllocUuidIn (apps : List (String × Application)) (id u : String) : Prop :=
  ∃ app, mapGet apps id = some app ∧ u ∈ app.allocations.map Allocation.uuid

/-- The node-removal loop returns exactly the allocations it is given when
each is still present on its stored application and the UUIDs are
pairwise distinct. -/
theorem removeLoop_returns (l : List Allocation) :
    ∀ pc : PartitionContext, (l.map Allocation.uuid).Nodup →
      (∀ a ∈ l, hasAllocUuid pc a.applicationID a.uuid) →
      (removeNodeAllocationsLoop pc l).1 = l := by
  induction l with
  | nil => intro pc _ _; rfl
  | cons a rest ih =>
    intro pc hnodup hmem
    rcases hmem a (by simp) with ⟨app, hget, humem⟩
    unfold removeNodeAllocationsLoop
    rw [hget]
    dsimp only
    have hfind := find?_uuid_isSome app.allocations a.uuid humem
    cases hf : app.allocations.find? (fun x => x.uuid = a.uuid) with
    | none => rw [hf] at hfind; cases hfind
    | some x =>
      have hra : app.removeAllocation a.uuid =
          (some x,
            { app with allocations := app.allocations.filter (fun y => y.uuid ≠ a.uuid) }) := by
        unfold Application.removeAllocation
        rw [hf]
      rw [hra]
      dsimp only
      have hbase : ∀ b ∈ rest,
          hasAllocUuidIn
            (mapPut pc.applications a.applicationID
              { app with allocations := app.allocations.filter (fun y => y.uuid ≠ a.uuid) })
            b.applicationID b.uuid := by
        intro b hb
        rcases hmem b (by simp [hb]) with ⟨appb, hgetb, humemb⟩
        by_cases hbid : b.applicationID = a.applicationID
        · rw [hbid] at hgetb
          have happb : appb = app := Option.some.inj (hgetb.symm.trans hget)
          rw [happb] at humemb
          refine ⟨{ app with
            allocations := app.allocations.filter (fun y => y.uuid ≠ a.uuid) }, ?_, ?_⟩
          · rw [hbid]
            exact mapGet_put_self _ _ _
          · dsimp only
            apply mem_uuid_filter
            · rw [List.map_cons, List.nodup_cons] at hnodup
              intro hequ
              exact hnodup.1 (hequ ▸ List.mem_map.mpr ⟨b, hb, rfl⟩)
            · exact humemb
        · refine ⟨appb, ?_, humemb⟩
          rw [mapGet_put_other _ _ _ _ hbid]
          exact hgetb
      have htail : ∀ b ∈ rest, True := fun _ _ => trivial
      cases hdec : decAllocatedByName pc.root app.queueName a.allocatedResource with
      | error e =>
        rw [List.cons.injEq]
        refine ⟨rfl, ?_⟩
        apply ih
        · rw [List.map_cons, List.nodup_cons] at hnodup
          exact hnodup.2
        · intro b hb
          exact hbase b hb
      | ok root1 =>
        rw [List.cons.injEq]
        refine ⟨rfl, ?_⟩
        apply ih
        · rw [List.map_cons, List.nodup_cons] at hnodup
          exact hnodup.2
        · intro b hb
          exact hbase b hb

end scheduler

/-- Node fixture for C5: fresh node with capacity {m:1}. -/
def c5node : scheduler.Node :=
  { nodeID := "node-A", capacity := [("m", 1)], occupied := [],
    available := [("m", 1)], allocations := [], schedulable := true,
    reservations := [] }

/-- Existing allocation handed to AddNode that references the other,
already registered node `node-1`, not the node being added. -/
def c5alloc : scheduler.Allocation :=
  { uuid := "u1", allocationKey := "k1", applicationID := "app-1",
    nodeID := "node-1", allocatedResource := [("m", 1)] }

/-- C5 counterexample: AddNode(node-A, [alloc on node-1]) succeeds — the
replay attaches the allocation to node-1 — but removeNode(node-A) then
returns no allocations, so the returned list is not a permutation of the
input allocs. -/
theorem c5_counterexample :
    (scheduler.AddNode c10pc (some c5node) [c5alloc]).1 = none ∧
    ¬ ((scheduler.removeNode (scheduler.AddNode c10pc (some c5node) [c5alloc]).2
        "node-A").1.Perm [c5alloc]) := by
  constructor
  · decide
  · intro hperm
    have hempty : (scheduler.removeNode
        (scheduler.AddNode c10pc (some c5node) [c5alloc]).2 "node-A").1 = [] := by
      decide
    rw [hempty] at hperm
    exact absurd hperm.symm (by simp)

/-- C5 amended: whenever AddNode(n, allocs) succeeds, removeNode(n.NodeID)
returns totalPartitionResource to its prior value on every dimension; and
when additionally the node carries no allocations of its own, every
allocation in allocs references n and the UUIDs are pairwise distinct,
the returned allocation list is exactly the input allocations. -/
theorem c5_addNode_removeNode_roundtrip (pc : scheduler.PartitionContext)
    (n : scheduler.Node) (allocs : List scheduler.Allocation)
    (pc1 : scheduler.PartitionContext)
    (hsucc : scheduler.AddNode pc (some n) allocs = (none, pc1)) :
    (∀ k, scheduler.totalGet
        (scheduler.removeNode pc1 n.nodeID).2.totalPartitionResource k =
      scheduler.totalGet pc.totalPartitionResource k) ∧
    (n.allocations = [] → (∀ a ∈ allocs, a.nodeID = n.nodeID) →
      (allocs.map scheduler.Allocation.uuid).Nodup →
      (scheduler.removeNode pc1 n.nodeID).1 = allocs) := by
  by_cases hg1 : (pc.isDraining || pc.isStopped) = true
  · unfold scheduler.AddNode at hsucc
    dsimp only at hsucc
    rw [if_pos hg1] at hsucc
    cases hsucc
  · have hd : pc.isDraining = false := by
      cases hx : pc.isDraining
      · rfl
      · rw [hx] at hg1; simp at hg1
    have hs : pc.isStopped = false := by
      cases hx : pc.isStopped
      · rfl
      · rw [hx] at hg1; simp at hg1
    by_cases hg2 : (scheduler.mapGet pc.nodes n.nodeID).isSome = true
    · unfold scheduler.AddNode at hsucc
      dsimp only at hsucc
      rw [if_neg hg1, if_pos hg2] at hsucc
      cases hsucc
    · rw [scheduler.AddNode_past_guards pc n allocs hd hs
        (by rw [Bool.not_eq_true] at hg2; exact hg2)] at hsucc
      have hframe := scheduler.replay_frame allocs (scheduler.addNodePC1 pc n)
      rcases hrep : scheduler.replayAllocations (scheduler.addNodePC1 pc n) allocs
        with ⟨oe, pc2⟩
      rw [hrep] at hsucc hframe
      cases oe with
      | some e => cases hsucc
      | none =>
        dsimp only at hsucc
        cases hsucc
        have hcap := hframe.2.2 n.nodeID
        have hput : scheduler.mapGet (scheduler.addNodePC1 pc n).nodes n.nodeID =
            some n := scheduler.mapGet_put_self pc.nodes n.nodeID n
        rw [hput] at hcap
        cases hget : scheduler.mapGet pc1.nodes n.nodeID with
        | none => rw [hget] at hcap; cases hcap
        | some n2 =>
          rw [hget] at hcap
          have hc2 : n2.capacity = n.capacity := by
            simpa using hcap
          have htot2 : pc1.totalPartitionResource =
              some (scheduler.newTotal pc n) := hframe.1.trans rfl
          unfold scheduler.removeNode scheduler.removeNodeInternal
          rw [hget]
          dsimp only
          have hloop := scheduler.removeLoop_frame n2.allocations
            { pc1 with nodes := scheduler.mapDel pc1.nodes n.nodeID }
          refine ⟨?_, ?_⟩
          · intro k
            have hrptot : (scheduler.removeNodeAllocationsLoop
                { pc1 with nodes := scheduler.mapDel pc1.nodes n.nodeID }
                n2.allocations).2.totalPartitionResource =
                some (scheduler.newTotal pc n) := hloop.2.1.trans htot2
            rw [hrptot]
            show (Resource.sub ((some (scheduler.newTotal pc n)).getD Resource.nil)
              n2.capacity).get k = scheduler.totalGet pc.totalPartitionResource k
            rw [Option.getD_some, hc2, Resource.get_sub]
            unfold scheduler.newTotal scheduler.totalGet
            cases htotal : pc.totalPartitionResource with
            | none =>
              dsimp only
              show (Resource.get n.capacity k) - n.capacity.get k = 0
              omega
            | some t =>
              dsimp only
              rw [Resource.get_add]
              omega
          · intro hfresh hnode huuid
            have hacc := scheduler.replay_ok_node_allocs allocs
              (scheduler.addNodePC1 pc n) n n.nodeID
              (scheduler.mapGet_put_self pc.nodes n.nodeID n) hnode huuid
              (by rw [hfresh]; simp)
            rw [hrep] at hacc
            rcases hacc rfl with ⟨nd', hget', hallocs', hcap', hmem'⟩
            have hn2 : n2 = nd' := Option.some.inj (hget.symm.trans hget')
            have hallocs2 : n2.allocations = allocs := by
              rw [hn2, hallocs', hfresh]
              rfl
            have hret := scheduler.removeLoop_returns n2.allocations
              { pc1 with nodes := scheduler.mapDel pc1.nodes n.nodeID }
              (by rw [hallocs2]; exact huuid)
              (by
                rw [hallocs2]
                intro a ha
                exact hmem' a ha)
            exact hret.trans hallocs2

/-- Allocation fixture for the C5 witness: an allocation that references
the node being added. -/
def c5walloc : scheduler.Allocation :=
  { uuid := "u1", allocationKey := "k1", applicationID := "app-1",
    nodeID := "node-A", allocatedResource := [("m", 1)] }

/-- Witness for the amended C5: a concrete add-then-remove roundtrip
returns the input allocation and restores the total on dimension m. -/
theorem c5_witness :
    (scheduler.removeNode
      (scheduler.AddNode c10pc (some c5node) [c5walloc]).2 "node-A").1 = [c5walloc] ∧
    scheduler.totalGet
      (scheduler.removeNode
        (scheduler.AddNode c10pc (some c5node) [c5walloc]).2
        "node-A").2.totalPartitionResource "m" =
      scheduler.totalGet c10pc.totalPartitionResource "m" := by
  have h1 : (scheduler.AddNode c10pc (some c5node) [c5walloc]).1 = none := by decide
  have hsucc : scheduler.AddNode c10pc (some c5node) [c5walloc] =
      (none, (scheduler.AddNode c10pc (some c5node) [c5walloc]).2) := by
    rw [← h1]
  have h := c5_addNode_removeNode_roundtrip c10pc c5node [c5walloc]
    (scheduler.AddNode c10pc (some c5node) [c5walloc]).2 hsucc
  exact ⟨h.2 rfl (by decide) (by decide), h.1 "m"⟩

theorem char_toLower_idem (c : Char) : (c.toLower).toLower = c.toLower := by
  unfold Char.toLower
  by_cases h : c.toNat ≥ 65 ∧ c.toNat ≤ 90
  · rw [if_pos h]
    have hvalid : (c.toNat + 32).isValidChar := Or.inl (by omega)
    have hv : (Char.ofNat (c.toNat + 32)).toNat = c.toNat + 32 := by
      unfold Char.ofNat
      rw [dif_pos hvalid]
      unfold Char.ofNatAux Char.toNat
      simp [UInt32.toNat, BitVec.toNat_ofNatLt]
    rw [hv]
    rw [if_neg (by omega)]
  · rw [if_neg h, if_neg h]

theorem strToLower_idem (s : String) : strToLower (strToLower s) = strToLower s := by
  unfold strToLower
  simp only [List.map_map]
  congr 1
  apply List.map_congr_left
  intro c _
  exact char_toLower_idem c

namespace scheduler

theorem updateAt_name (parts : List String) (q : Queue) (f : Queue → Queue)
    (hf : ∀ x, (f x).name = x.name) : (updateAt q parts f).name = q.name := by
  cases parts with
  | nil => exact hf q
  | cons p rest => rfl

theorem find?_map_update (l : List Queue) (p : String) (rest : List String)
    (f : Queue → Queue) (hf : ∀ x, (f x).name = x.name) (c : Queue) :
    l.find? (fun x => x.name = p) = some c →
    (l.map (fun d => if d.name = p then updateAt d rest f else d)).find?
      (fun d => d.name = p) = some (updateAt c rest f) := by
  induction l with
  | nil => intro h; cases h
  | cons d ds ih =>
    intro h
    by_cases hd : d.name = p
    · rw [List.find?_cons_of_pos _ (by simpa using hd)] at h
      rw [List.map_cons, if_pos hd,
        List.find?_cons_of_pos _ (by simp [updateAt_name rest d f hf, hd])]
      rw [show d = c from Option.some.inj h]
    · rw [List.find?_cons_of_neg _ (by simpa using hd)] at h
      rw [List.map_cons, if_neg hd, List.find?_cons_of_neg _ (by simp [hd])]
      exact ih h

theorem getChild_updateAt (q : Queue) (p : String) (rest : List String)
    (f : Queue → Queue) (hf : ∀ x, (f x).name = x.name) (c : Queue)
    (hc : q.getChildQueue p = some c) :
    (updateAt q (p :: rest) f).getChildQueue p = some (updateAt c rest f) := by
  unfold Queue.getChildQueue at hc ⊢
  exact find?_map_update q.children p rest f hf c hc

theorem collectPath_updateAt (parts : List String) :
    ∀ (q : Queue) (anc : List Queue) (t : Queue) (f : Queue → Queue),
    (∀ x, (f x).name = x.name) →
    collectPath q parts = some (anc, t) →
    ∃ anc', collectPath (updateAt q parts f) parts = some (anc', f t) := by
  induction parts with
  | nil =>
    intro q anc t f hf h
    unfold collectPath at h
    have ht : t = q := (congrArg Prod.snd (Option.some.inj h)).symm
    subst ht
    exact ⟨[], rfl⟩
  | cons p rest ih =>
    intro q anc t f hf h
    unfold collectPath at h
    cases hc : q.getChildQueue p with
    | none => rw [hc] at h; cases h
    | some c =>
      rw [hc] at h
      dsimp only at h
      cases hcp : collectPath c rest with
      | none => rw [hcp] at h; cases h
      | some ap =>
        rw [hcp] at h
        have h2 : some (q :: ap.1, ap.2) = some (anc, t) := by simpa using h
        have ht : ap.2 = t := congrArg Prod.snd (Option.some.inj h2)
        rcases ih c ap.1 ap.2 f hf (by rw [hcp]) with ⟨anc0, hrec⟩
        refine ⟨updateAt q (p :: rest) f :: anc0, ?_⟩
        unfold collectPath
        rw [getChild_updateAt q p rest f hf c hc]
        dsimp only
        rw [hrec, ← ht]
        rfl

end scheduler

namespace scheduler

/-- The path segments below the root for a fully qualified queue name. -/
def pathTailOf (qn : String) : List String :=
  match splitDot (strToLower qn) with
  | [] => []
  | _ :: rest => rest

theorem addAppToQueue_name (q : Queue) (id : String) :
    (addAppToQueue q id).name = q.name := rfl

theorem addAppToQueue_isLeaf (q : Queue) (id : String) :
    (addAppToQueue q id).isLeaf = q.isLeaf := rfl

theorem mem_addAppToQueue (q : Queue) (id : String) :
    id ∈ (addAppToQueue q id).applications := by
  unfold addAppToQueue
  show id ∈ q.applications.filter (fun x => x ≠ id) ++ [id]
  exact List.mem_append.mpr (Or.inr (by simp))

theorem resolveQueueName_id (pc : PartitionContext) (app : Application) (qn : String)
    (app1 : Application) (h : resolveQueueName pc app = .ok (qn, app1)) :
    app1.applicationID = app.applicationID := by
  unfold resolveQueueName at h
  cases hp : pc.placement with
  | none =>
    rw [hp] at h
    have h2 := congrArg Prod.snd (Except.ok.inj h)
    dsimp only at h2
    rw [← h2]
  | some f =>
    rw [hp] at h
    dsimp only at h
    cases hf : f app with
    | error e => rw [hf] at h; cases h
    | ok qn0 =>
      rw [hf] at h
      dsimp only at h
      by_cases hq0 : qn0 = ""
      · rw [if_pos hq0] at h; cases h
      · rw [if_neg hq0] at h
        have h2 := congrArg Prod.snd (Except.ok.inj h)
        dsimp only at h2
        rw [← h2]

/-- Outcome shape of `finishAdd`: either the leaf/submit-access check
fails and the state is returned unchanged, or it passes and the
application map and the queue tree are updated. -/
theorem finishAdd_shape (pcX : PartitionContext) (app1 : Application) (qn : String)
    (aq : List Queue × Queue) :
    (finishAdd pcX app1 qn aq =
        (some "failed to find queue for application", pcX)) ∨
    ((finishAdd pcX app1 qn aq).1 = none ∧
      aq.2.isLeaf = true ∧
      submitAccessList (aq.2 :: aq.1.reverse) app1.user = true ∧
      (finishAdd pcX app1 qn aq).2.applications =
        mapPut pcX.applications app1.applicationID
          { app1 with queueName := strToLower qn } ∧
      (finishAdd pcX app1 qn aq).2.root =
        updateAt pcX.root (pathTailOf qn)
          (fun q => addAppToQueue q app1.applicationID)) := by
  unfold finishAdd
  by_cases hguard : (!(aq.2.isLeaf) ||
      !(submitAccessList (aq.2 :: aq.1.reverse) app1.user)) = true
  · rw [if_pos hguard]
    exact Or.inl rfl
  · rw [if_neg hguard]
    rw [Bool.or_eq_true, Bool.not_eq_true', Bool.not_eq_true'] at hguard
    push_neg at hguard
    have hleaf : aq.2.isLeaf = true := by
      cases hx : aq.2.isLeaf
      · exact absurd hx hguard.1
      · rfl
    have hacc : submitAccessList (aq.2 :: aq.1.reverse) app1.user = true := by
      cases hx : submitAccessList (aq.2 :: aq.1.reverse) app1.user
      · exact absurd hx hguard.2
      · rfl
    exact Or.inr ⟨rfl, hleaf, hacc, rfl, rfl⟩

end scheduler

namespace scheduler

theorem AddApplication_past_guards (pc : PartitionContext) (app : Application)
    (hd : pc.isDraining = false) (hs : pc.isStopped = false)
    (hdup : (mapGet pc.applications app.applicationID).isSome = false) :
    AddApplication pc app =
      (match resolveQueueName pc app with
       | .error e => (some e, pc)
       | .ok (queueName, app1) =>
         match locate pc.root queueName with
         | some aq => finishAdd pc app1 queueName aq
         | none =>
           if pc.placement.isNone then
             (some "application rejected, cannot create queue without placement rules", pc)
           else
             match createQueue pc.root queueName app1.user with
             | .error _ => (some "failed to create rule based queue", pc)
             | .ok root1 =>
               match locate root1 queueName with
               | some aq => finishAdd { pc with root := root1 } app1 queueName aq
               | none =>
                 (some "failed to create rule based queue", { pc with root := root1 })) := by
  unfold AddApplication
  rw [if_neg (by rw [hd, hs]; simp), if_neg (by rw [hdup]; simp)]

/-- Outcome shape of `AddApplication`: every error path leaves the
applications map untouched; the success path goes through `finishAdd` on a
located queue with the applications map of the original partition. -/
theorem AddApplication_master (pc : PartitionContext) (app : Application) :
    ((AddApplication pc app).1.isSome = true ∧
      (AddApplication pc app).2.applications = pc.applications) ∨
    ((AddApplication pc app).1 = none ∧
      ∃ qn app1 pcX aq,
        resolveQueueName pc app = Except.ok (qn, app1) ∧
        pcX.applications = pc.applications ∧
        AddApplication pc app = finishAdd pcX app1 qn aq ∧
        locate pcX.root qn = some aq ∧
        (finishAdd pcX app1 qn aq).1 = none) := by
  by_cases hg1 : (pc.isDraining || pc.isStopped) = true
  · left
    unfold AddApplication
    rw [if_pos hg1]
    exact ⟨rfl, rfl⟩
  · have hd : pc.isDraining = false := by
      cases hx : pc.isDraining
      · rfl
      · rw [hx] at hg1; simp at hg1
    have hs : pc.isStopped = false := by
      cases hx : pc.isStopped
      · rfl
      · rw [hx] at hg1; simp at hg1
    by_cases hg2 : (mapGet pc.applications app.applicationID).isSome = true
    · left
      unfold AddApplication
      rw [if_neg hg1, if_pos hg2]
      exact ⟨rfl, rfl⟩
    · rw [AddApplication_past_guards pc app hd hs (by rw [Bool.not_eq_true] at hg2; exact hg2)]
      cases hres : resolveQueueName pc app with
      | error e =>
        left
        exact ⟨rfl, rfl⟩
      | ok pair =>
        rcases pair with ⟨qn, app1⟩
        dsimp only
        cases hloc : locate pc.root qn with
        | some aq =>
          dsimp only
          rcases finishAdd_shape pc app1 qn aq with herr | hok
          · left
            rw [herr]
            exact ⟨rfl, rfl⟩
          · right
            exact ⟨hok.1, qn, app1, pc, aq, rfl, rfl, rfl, hloc, hok.1⟩
        | none =>
          dsimp only
          by_cases hpl : pc.placement.isNone = true
          · rw [if_pos hpl]
            left
            exact ⟨rfl, rfl⟩
          · rw [if_neg hpl]
            cases hcq : createQueue pc.root qn app1.user with
            | error e =>
              left
              exact ⟨rfl, rfl⟩
            | ok root1 =>
              dsimp only
              cases hloc2 : locate root1 qn with
              | none =>
                left
                exact ⟨rfl, rfl⟩
              | some aq =>
                dsimp only
                rcases finishAdd_shape { pc with root := root1 } app1 qn aq with herr | hok
                · left
                  rw [herr]
                  exact ⟨rfl, rfl⟩
                · right
                  exact ⟨hok.1, qn, app1, { pc with root := root1 }, aq, rfl, rfl, rfl,
                    hloc2, hok.1⟩

end scheduler

/-- C4: AddApplication fails on a Draining or Stopped partition, on a
duplicate application ID, and when the resolved queue is not a leaf or
does not grant the application's user submit access; every failure leaves
the partition's applications map unchanged.  On success the application is
stored in the partition map under its ID with its queue name set to the
resolved queue's path, and the application has been added to that (leaf)
queue. -/
theorem c4_addApplication_spec (pc : scheduler.PartitionContext)
    (app : scheduler.Application) :
    ((pc.isDraining = true ∨ pc.isStopped = true) →
      scheduler.AddApplication pc app =
        (some "partition is stopped cannot add a new application", pc)) ∧
    (pc.isDraining = false → pc.isStopped = false →
      (scheduler.mapGet pc.applications app.applicationID).isSome = true →
      scheduler.AddApplication pc app =
        (some "adding application to partition, but application already existed", pc)) ∧
    (∀ qn app1 aq, scheduler.resolveQueueName pc app = Except.ok (qn, app1) →
      scheduler.locate pc.root qn = some aq →
      (aq.2.isLeaf = false ∨
        scheduler.submitAccessList (aq.2 :: aq.1.reverse) app1.user = false) →
      (scheduler.AddApplication pc app).1.isSome = true) ∧
    (∀ e pc', scheduler.AddApplication pc app = (some e, pc') →
      pc'.applications = pc.applications) ∧
    (∀ pc', scheduler.AddApplication pc app = (none, pc') →
      ∃ app2 aq', scheduler.mapGet pc'.applications app.applicationID = some app2 ∧
        scheduler.locate pc'.root app2.queueName = some aq' ∧
        aq'.2.isLeaf = true ∧ app.applicationID ∈ aq'.2.applications) := by
  refine ⟨?_, ?_, ?_, ?_, ?_⟩
  · intro h
    unfold scheduler.AddApplication
    rw [if_pos (by rcases h with h | h <;> rw [h] <;> simp)]
  · intro hd hs hdup
    unfold scheduler.AddApplication
    rw [if_neg (by rw [hd, hs]; simp), if_pos hdup]
  · intro qn app1 aq hres hloc hbad
    by_cases hg1 : (pc.isDraining || pc.isStopped) = true
    · unfold scheduler.AddApplication
      rw [if_pos hg1]
      rfl
    · have hd : pc.isDraining = false := by
        cases hx : pc.isDraining
        · rfl
        · rw [hx] at hg1; simp at hg1
      have hs : pc.isStopped = false := by
        cases hx : pc.isStopped
        · rfl
        · rw [hx] at hg1; simp at hg1
      by_cases hg2 : (scheduler.mapGet pc.applications app.applicationID).isSome = true
      · unfold scheduler.AddApplication
        rw [if_neg hg1, if_pos hg2]
        rfl
      · rw [scheduler.AddApplication_past_guards pc app hd hs
          (by rw [Bool.not_eq_true] at hg2; exact hg2), hres]
        dsimp only
        rw [hloc]
        dsimp only
        unfold scheduler.finishAdd
        rw [if_pos ?hguard]
        · rfl
        case hguard =>
          rcases hbad with hb | hb <;> rw [hb] <;> simp
  · intro e pc' hfail
    rcases scheduler.AddApplication_master pc app with ⟨_, happs⟩ | ⟨hnone, _⟩
    · rw [hfail] at happs
      exact happs
    · rw [hfail] at hnone
      cases hnone
  · intro pc' hsucc
    rcases scheduler.AddApplication_master pc app with ⟨hsome, _⟩ |
      ⟨_, qn, app1, pcX, aq, hres, happsX, heqf, hloc, hfin⟩
    · rw [hsucc] at hsome
      cases hsome
    · rw [hsucc] at heqf
      rcases scheduler.finishAdd_shape pcX app1 qn aq with herr |
        ⟨_, hleaf, _, happs2, hroot2⟩
      · rw [herr] at heqf
        cases heqf
      · have hpc' : pc' = (scheduler.finishAdd pcX app1 qn aq).2 := by
          rw [← heqf]
        have hid := scheduler.resolveQueueName_id pc app qn app1 hres
        unfold scheduler.locate at hloc
        cases hsplit : splitDot (strToLower qn) with
        | nil => rw [hsplit] at hloc; cases hloc
        | cons p0 rest =>
          rw [hsplit] at hloc
          dsimp only at hloc
          by_cases hp0 : p0 ≠ scheduler.RootQueue
          · rw [if_pos hp0] at hloc; cases hloc
          · rw [if_neg hp0] at hloc
            have hpt : scheduler.pathTailOf qn = rest := by
              unfold scheduler.pathTailOf
              rw [hsplit]
            have hf : ∀ x : scheduler.Queue,
                (scheduler.addAppToQueue x app1.applicationID).name = x.name :=
              fun x => rfl
            rcases scheduler.collectPath_updateAt rest pcX.root aq.1 aq.2
              (fun q => scheduler.addAppToQueue q app1.applicationID) hf hloc
              with ⟨anc', hcp'⟩
            refine ⟨{ app1 with queueName := strToLower qn },
              (anc', scheduler.addAppToQueue aq.2 app1.applicationID), ?_, ?_, ?_, ?_⟩
            · rw [hpc', happs2, ← hid]
              exact scheduler.mapGet_put_self _ _ _
            · show scheduler.locate pc'.root (strToLower qn) = _
              unfold scheduler.locate
              rw [strToLower_idem, hsplit]
              dsimp only
              rw [if_neg hp0, hpc', hroot2, hpt]
              exact hcp'
            · rw [scheduler.addAppToQueue_isLeaf]
              exact hleaf
            · rw [← hid]
              exact scheduler.mem_addAppToQueue aq.2 app1.applicationID

/-- Application fixture for the C4 witness. -/
def c4app : scheduler.Application :=
  { applicationID := "app-2", queueName := "root.default", user := ⟨"u", []⟩,
    allocations := [], reservations := [] }

/-- Witness for C4: adding a fresh application aimed at the leaf
`root.default` (submit allowed by the root wildcard ACL) succeeds, stores
it in the partition map, and registers it on the leaf queue. -/
theorem c4_witness :
    ∃ app2 aq', scheduler.mapGet
        (scheduler.AddApplication c10pc c4app).2.applications "app-2" = some app2 ∧
      scheduler.locate (scheduler.AddApplication c10pc c4app).2.root app2.queueName =
        some aq' ∧
      aq'.2.isLeaf = true ∧ "app-2" ∈ aq'.2.applications := by
  have h1 : (scheduler.AddApplication c10pc c4app).1 = none := by decide
  have hsucc : scheduler.AddApplication c10pc c4app =
      (none, (scheduler.AddApplication c10pc c4app).2) := by
    rw [← h1]
  exact (c4_addApplication_spec c10pc c4app).2.2.2.2
    (scheduler.AddApplication c10pc c4app).2 hsucc
